import Mathlib

/-!
Fixed-point binary logarithm kernel (`main.cpp`).

A shallow embedding of the bit-scan primitives, the `msb` helper family and the two
fixed-point `log2` routines of `main.cpp`, followed by theorems about them.

Conventions of the embedding.
* Machine words are natural numbers; every operation that can leave the width of its C type
  is followed by an explicit reduction `% 2 ^ w` (`uint16_t`: 16, `uint32_t`/`int`: 32,
  `uint64_t`/`size_t`: 64).
* A right shift is the mathematical shift on natural numbers; in particular a right shift by
  at least the width gives `0`.
* The left shift `1 << rShifts` is done in the 32-bit type `int`.  Its count is taken modulo
  32, as the compiled program does: the C++ shift by 32 is undefined, and `1 << 32` is `1`
  there, so that `(1 << 32) - 1` is `0`.
* `assert` is active: a failing assertion ends the call with a `Fault`.
* A function that writes through `uint32_t* pIntPart` takes the previous content of the slot
  as an argument and returns the final content next to the returned value.
-/

namespace Log2Test

/-- Which `assert` of the program failed. -/
inductive Fault where
  /-- `assert (bb != 0)` in `bitScanForward` / `bitScanReverse`. -/
  | bbNonzero
  /-- `assert(iteCnt <= 28)` resp. `assert(iteCnt <= 30)`. -/
  | iteCntBound
  deriving DecidableEq, Repr

deriving instance DecidableEq for Except

/-- The table `lsb_64_table[64]`. -/
def lsb_64_table : List Nat :=
  [63, 30,  3, 32, 59, 14, 11, 33,
   60, 24, 50,  9, 55, 19, 21, 34,
   61, 29,  2, 53, 51, 23, 41, 18,
   56, 28,  1, 43, 46, 27,  0, 35,
   62, 31, 58,  4,  5, 49, 54,  6,
   15, 52, 12, 40,  7, 42, 45, 16,
   25, 57, 48, 13, 10, 39,  8, 44,
   20, 47, 38, 22, 17, 37, 36, 26]

/-- The conversion of a 32-bit pattern, read as a signed `int`, to `uint64_t`
(sign extension), as it happens to `(int) bb` in `(int) bb ^ (bb >> 32)`. -/
def intToU64 (x : Nat) : Nat :=
  if x < 2 ^ 31 then x else x + (2 ^ 64 - 2 ^ 32)

/-- The last two lines of `bitScanForward`: `folded = (int) bb ^ (bb >> 32);` (the cast binds
tighter than `^`, the result is truncated to `unsigned int`) and
`return lsb_64_table[folded * 0x78291ACF >> 26];` with the product in `unsigned int`. -/
def bitScanForwardFold (bb : Nat) : Nat :=
  let folded := (intToU64 (bb % 2 ^ 32) ^^^ (bb >>> 32)) % 2 ^ 32
  lsb_64_table.getD ((folded * 0x78291ACF % 2 ^ 32) >>> 26) 0

/-- The body of `bitScanForward` after the assertion: `bb ^= bb - 1;` in `uint64_t`, then the
fold and the table lookup. -/
def bitScanForwardCore (bb : Nat) : Nat :=
  bitScanForwardFold (bb ^^^ ((bb + 2 ^ 64 - 1) % 2 ^ 64))

/-- The function `int bitScanForward(uint64_t bb)`. -/
def bitScanForward (bb : Nat) : Except Fault Nat :=
  if bb = 0 then .error .bbNonzero else .ok (bitScanForwardCore bb)

/-- The table `msb_MultiplyDeBruijnBitPosition[32]`. -/
def msb_MultiplyDeBruijnBitPosition : List Nat :=
  [0, 9, 1, 10, 13, 21, 2, 29, 11, 14, 16, 18, 22, 25, 3, 30,
   8, 12, 20, 28, 15, 17, 24, 7, 19, 27, 23, 6, 26, 5, 4, 31]

/-- The statement `v |= v >> s;` on a variable of width `w`. -/
def orShr (w s v : Nat) : Nat := (v ||| (v >>> s)) % 2 ^ w

/-- The common last line of the `msb` helpers:
`msb_MultiplyDeBruijnBitPosition[(uint32_t)(v * 0x07C4ACDDU) >> 27]`. -/
def msbLookup (v : Nat) : Nat :=
  msb_MultiplyDeBruijnBitPosition.getD ((v * 0x07C4ACDD % 2 ^ 32) >>> 27) 0

/-- The function `size_t msb8bit(uint16_t v)`: three fill rounds. -/
def msb8bit (v : Nat) : Nat :=
  let v := orShr 16 1 v
  let v := orShr 16 2 v
  let v := orShr 16 4 v
  msbLookup v

/-- The function `size_t msb16bit(uint16_t v)`: four fill rounds. -/
def msb16bit (v : Nat) : Nat :=
  let v := orShr 16 1 v
  let v := orShr 16 2 v
  let v := orShr 16 4 v
  let v := orShr 16 8 v
  msbLookup v

/-- The function `size_t msb32bit(uint32_t v)`: five fill rounds. -/
def msb32bit (v : Nat) : Nat :=
  let v := orShr 32 1 v
  let v := orShr 32 2 v
  let v := orShr 32 4 v
  let v := orShr 32 8 v
  let v := orShr 32 16 v
  msbLookup v

/-- The table `index64[64]`. -/
def index64 : List Nat :=
  [ 0, 47,  1, 56, 48, 27,  2, 60,
   57, 49, 41, 37, 28, 16,  3, 61,
   54, 58, 35, 52, 50, 42, 21, 44,
   38, 32, 29, 23, 17, 11,  4, 62,
   46, 55, 26, 59, 40, 36, 15, 53,
   34, 51, 20, 43, 31, 22, 10, 45,
   25, 39, 14, 33, 19, 30,  9, 24,
   13, 18,  8, 12,  7,  6,  5, 63]

/-- The constant `debruijn64` of `bitScanReverse`. -/
def debruijn64 : Nat := 0x03f79d71b4cb0a89

/-- The last line of `bitScanReverse`: `return index64[(bb * debruijn64) >> 58];` with the
product in `uint64_t`. -/
def index64Lookup (bb : Nat) : Nat :=
  index64.getD ((bb * debruijn64 % 2 ^ 64) >>> 58) 0

/-- The body of `bitScanReverse` after the assertion: six fill rounds, then the lookup. -/
def bitScanReverseCore (bb : Nat) : Nat :=
  let bb := orShr 64 1 bb
  let bb := orShr 64 2 bb
  let bb := orShr 64 4 bb
  let bb := orShr 64 8 bb
  let bb := orShr 64 16 bb
  let bb := orShr 64 32 bb
  index64Lookup bb

/-- The function `int bitScanReverse(uint64_t bb)`. -/
def bitScanReverse (bb : Nat) : Except Fault Nat :=
  if bb = 0 then .error .bbNonzero else .ok (bitScanReverseCore bb)

/-- The three variables the `for` loop of `ilog2_32` / `ilog2_64` updates. -/
structure LoopState where
  /-- The working value `v`. -/
  v : Nat
  /-- The variable `size_t nFracBits`. -/
  nFracBits : Nat
  /-- The variable `uint32_t resultBits`. -/
  resultBits : Nat
  deriving DecidableEq, Repr

/-- The initialiser `uint32_t half = (1 << rShifts) - 1;`: the shift and the subtraction are
done in the 32-bit type `int` and the result is converted to `uint32_t`.  The count of the
32-bit shift is taken modulo 32, as the compiled program does: for `rShifts = 32`, where
the C++ shift is undefined, `1 << rShifts` is `1` and `half` is `0`. -/
def halfOf (rShifts : Nat) : Nat :=
  ((1 <<< (rShifts % 32)) % 2 ^ 32 + (2 ^ 32 - 1)) % 2 ^ 32

/-- One round of the body of `while (v >= (1U<<16))` in `ilog2_32`, on `(v, nFracBits)`. -/
def renormRound32 (v nFracBits : Nat) : Nat × Nat :=
  let rShifts := (msb16bit ((v >>> 16) % 2 ^ 16) + 1) % 2 ^ 32
  let half := halfOf rShifts
  (((v + half) % 2 ^ 32) >>> rShifts, (nFracBits + 2 ^ 64 - rShifts) % 2 ^ 64)

/-- The loop `while (v >= (1U<<16)) { ... }` of `ilog2_32` run for at most `fuel` rounds. -/
def renormWhile32 : Nat → Nat → Nat → Nat × Nat
  | 0, v, nFracBits => (v, nFracBits)
  | fuel + 1, v, nFracBits =>
    if 2 ^ 16 ≤ v then
      renormWhile32 fuel (renormRound32 v nFracBits).1 (renormRound32 v nFracBits).2
    else (v, nFracBits)

/-- The loop `while (v >= (1U<<16)) { ... }` of `ilog2_32`.  Every round makes `v` strictly
smaller, so `v` rounds are always enough: `renorm32_unfold` below is the equation of the
loop. -/
def renorm32 (v nFracBits : Nat) : Nat × Nat :=
  renormWhile32 v v nFracBits

/-- The statements after the inner loop, common to both routines up to the width `w` of `v`:
`v *= v; nFracBits <<= 1; resultBits <<= 1; if (v >> (nFracBits+1)) { ++resultBits;
++nFracBits; }`. -/
def squareExtract (w v nFracBits resultBits : Nat) : LoopState :=
  let v := v * v % 2 ^ w
  let nFracBits := nFracBits * 2 % 2 ^ 64
  let resultBits := resultBits * 2 % 2 ^ 32
  if v >>> ((nFracBits + 1) % 2 ^ 64) ≠ 0 then
    { v := v, nFracBits := (nFracBits + 1) % 2 ^ 64, resultBits := (resultBits + 1) % 2 ^ 32 }
  else
    { v := v, nFracBits := nFracBits, resultBits := resultBits }

/-- One iteration of the `for` loop of `ilog2_32`. -/
def iterBody32 (s : LoopState) : LoopState :=
  squareExtract 32 (renorm32 s.v s.nFracBits).1 (renorm32 s.v s.nFracBits).2 s.resultBits

/-- The function `uint32_t ilog2_32(uint32_t v, size_t iteCnt, uint32_t* pIntPart)`.
`pIntPart` is the content of the output slot before the call; the result is the returned
value and the content of the slot after the call. -/
def ilog2_32 (v iteCnt pIntPart : Nat) : Except Fault (Nat × Nat) :=
  if ¬ iteCnt ≤ 28 then .error .iteCntBound
  else if v = 0 then .ok (0xFFFFFFFF, pIntPart)
  else
    match bitScanForward v with
    | .error e => .error e
    | .ok trailZeroCount =>
      let posMSB := msb32bit v
      if posMSB = trailZeroCount then .ok (0, posMSB)
      else
        let s0 : LoopState :=
          { v := v >>> trailZeroCount
            nFracBits := (posMSB + 2 ^ 64 - trailZeroCount) % 2 ^ 64
            resultBits := 0 }
        .ok ((iterBody32^[iteCnt] s0).resultBits, posMSB)

/-- One round of the body of `while (v >= (1ULL<<32))` in `ilog2_64`, on `(v, nFracBits)`. -/
def renormRound64 (v nFracBits : Nat) : Nat × Nat :=
  let rShifts := (msb32bit ((v >>> 32) % 2 ^ 32) + 1) % 2 ^ 32
  let half := halfOf rShifts
  (((v + half) % 2 ^ 64) >>> rShifts, (nFracBits + 2 ^ 64 - rShifts) % 2 ^ 64)

/-- The loop `while (v >= (1ULL<<32)) { ... }` of `ilog2_64` run for at most `fuel` rounds. -/
def renormWhile64 : Nat → Nat → Nat → Nat × Nat
  | 0, v, nFracBits => (v, nFracBits)
  | fuel + 1, v, nFracBits =>
    if 2 ^ 32 ≤ v then
      renormWhile64 fuel (renormRound64 v nFracBits).1 (renormRound64 v nFracBits).2
    else (v, nFracBits)

/-- The loop `while (v >= (1ULL<<32)) { ... }` of `ilog2_64`.  Every round makes `v` strictly
smaller, so `v` rounds are always enough: `renorm64_unfold` below is the equation of the
loop. -/
def renorm64 (v nFracBits : Nat) : Nat × Nat :=
  renormWhile64 v v nFracBits

/-- One iteration of the `for` loop of `ilog2_64`. -/
def iterBody64 (s : LoopState) : LoopState :=
  squareExtract 64 (renorm64 s.v s.nFracBits).1 (renorm64 s.v s.nFracBits).2 s.resultBits

/-- The function `uint32_t ilog2_64(uint64_t v, size_t iteCnt, uint32_t* pIntPart)`.
`pIntPart` is the content of the output slot before the call; the result is the returned
value and the content of the slot after the call. -/
def ilog2_64 (v iteCnt pIntPart : Nat) : Except Fault (Nat × Nat) :=
  if ¬ iteCnt ≤ 30 then .error .iteCntBound
  else if v = 0 then .ok (0xFFFFFFFF, pIntPart)
  else
    match bitScanForward v with
    | .error e => .error e
    | .ok trailZeroCount =>
      match bitScanReverse v with
      | .error e => .error e
      | .ok posMSB =>
        if posMSB = trailZeroCount then .ok (0, posMSB)
        else
          let s0 : LoopState :=
            { v := v >>> trailZeroCount
              nFracBits := (posMSB + 2 ^ 64 - trailZeroCount) % 2 ^ 64
              resultBits := 0 }
          .ok ((iterBody64^[iteCnt] s0).resultBits, posMSB)

/-- The number of rounds `while (v >= (1U<<16)) { ... }` of `ilog2_32` runs, counted along
`renormWhile32` with the same bound on the rounds. -/
def renormCount32 : Nat → Nat → Nat → Nat
  | 0, _, _ => 0
  | fuel + 1, v, nFracBits =>
    if 2 ^ 16 ≤ v then
      renormCount32 fuel (renormRound32 v nFracBits).1 (renormRound32 v nFracBits).2 + 1
    else 0

/-- The number of rounds of the inner loop of `ilog2_32` from `(v, nFracBits)`. -/
def renormRounds32 (v nFracBits : Nat) : Nat :=
  renormCount32 v v nFracBits

/-- The number of rounds `while (v >= (1ULL<<32)) { ... }` of `ilog2_64` runs, counted along
`renormWhile64` with the same bound on the rounds. -/
def renormCount64 : Nat → Nat → Nat → Nat
  | 0, _, _ => 0
  | fuel + 1, v, nFracBits =>
    if 2 ^ 32 ≤ v then
      renormCount64 fuel (renormRound64 v nFracBits).1 (renormRound64 v nFracBits).2 + 1
    else 0

/-- The number of rounds of the inner loop of `ilog2_64` from `(v, nFracBits)`. -/
def renormRounds64 (v nFracBits : Nat) : Nat :=
  renormCount64 v v nFracBits

/-- The total number of inner-loop rounds in `k` iterations of the `for` loop of `ilog2_32`
from the state `s`. -/
def callRounds32 : Nat → LoopState → Nat
  | 0, _ => 0
  | k + 1, s => renormRounds32 s.v s.nFracBits + callRounds32 k (iterBody32 s)

/-- The total number of inner-loop rounds in `k` iterations of the `for` loop of `ilog2_64`
from the state `s`. -/
def callRounds64 : Nat → LoopState → Nat
  | 0, _ => 0
  | k + 1, s => renormRounds64 s.v s.nFracBits + callRounds64 k (iterBody64 s)

/-- The range condition on the working value `w` and `nFracBits = n` of `ilog2_32` between
iterations: `2 ^ n ≤ w ≤ 2 ^ (n + 1)` and `w ≤ 0xFFFF0000`. -/
def FracInv (w n : Nat) : Prop :=
  2 ^ n ≤ w ∧ w ≤ 2 ^ (n + 1) ∧ w ≤ 0xFFFF0000

instance (w n : Nat) : Decidable (FracInv w n) := by
  unfold FracInv
  infer_instance

/-- The state in which `ilog2_32` enters its `for` loop on `v`: after `v >>= trailZeroCount;
nFracBits -= trailZeroCount;` with `resultBits = 0`. -/
def loopStart32 (v : Nat) : LoopState :=
  { v := v >>> bitScanForwardCore v
    nFracBits := (msb32bit v + 2 ^ 64 - bitScanForwardCore v) % 2 ^ 64
    resultBits := 0 }

/-- The integer check behind the error bound of `ilog2_32(v, 16)` on inputs with 8
fractional bits: the call returns `(frac, 8)` and, with `N = 8 * 2 ^ 16 + frac`,
`2 ^ (N - 2) ≤ v ^ (2 ^ 16) < 2 ^ (N + 1)`, that is `N - 2 ≤ 2 ^ 16 * log2 v < N + 1`. -/
def errCheck (v : Nat) : Bool :=
  match ilog2_32 v 16 0 with
  | .ok (frac, intPart) =>
    intPart == 8 && decide (2 ^ (8 * 2 ^ 16 + frac - 2) ≤ v ^ 2 ^ 16) &&
      decide (v ^ 2 ^ 16 < 2 ^ (8 * 2 ^ 16 + frac + 1))
  | .error _ => false

/-! ## Bit-level lemmas -/

/-- The value of `(v >> i) & 1` in terms of `Nat.testBit`. -/
theorem shiftRight_and_one (v i : Nat) :
    (v >>> i) &&& 1 = if v.testBit i then 1 else 0 := by
  rw [Nat.and_one_is_mod, Nat.testBit_to_div_mod, Nat.shiftRight_eq_div_pow]
  rcases Nat.mod_two_eq_zero_or_one (v / 2 ^ i) with h | h <;> simp [h]

/-- The top bit of a number between `2 ^ k` and `2 ^ (k + 1)` is bit `k`. -/
theorem testBit_top {k x : Nat} (h1 : 2 ^ k ≤ x) (h2 : x < 2 ^ (k + 1)) :
    x.testBit k = true := by
  rw [Nat.testBit_to_div_mod]
  have : x / 2 ^ k = 1 := by
    apply Nat.div_eq_of_lt_le
    · simpa using h1
    · simpa [Nat.pow_succ, Nat.mul_comm] using h2
  simp [this]

/-- A number below `2 ^ (k + 1)` whose bits `0..k` are all set is `2 ^ (k + 1) - 1`. -/
theorem eq_ones_of_bits {k x : Nat} (hx : x < 2 ^ (k + 1))
    (h : ∀ i, i ≤ k → x.testBit i = true) : x = 2 ^ (k + 1) - 1 := by
  apply Nat.eq_of_testBit_eq
  intro i
  rw [Nat.testBit_two_pow_sub_one]
  by_cases hi : i < k + 1
  · simp [hi, h i (by omega)]
  · have hle : 2 ^ (k + 1) ≤ 2 ^ i := Nat.pow_le_pow_right (by norm_num) (by omega)
    simp [hi, Nat.testBit_lt_two_pow (lt_of_lt_of_le hx hle)]

/-- One fill round `v |= v >> s`: if the `m` bits below and including bit `k` are set and
`s ≤ m`, then afterwards the `m + s` bits below and including bit `k` are set. -/
theorem orShr_fill {w k m s x : Nat} (hk : k < w) (hx : x < 2 ^ (k + 1))
    (hbits : ∀ i, i ≤ k → k < i + m → x.testBit i = true) (hs : s ≤ m) :
    orShr w s x < 2 ^ (k + 1) ∧
      ∀ i, i ≤ k → k < i + (m + s) → (orShr w s x).testBit i = true := by
  have hshr : x >>> s < 2 ^ (k + 1) := by
    rw [Nat.shiftRight_eq_div_pow]
    exact lt_of_le_of_lt (Nat.div_le_self _ _) hx
  have hor : x ||| (x >>> s) < 2 ^ (k + 1) := Nat.or_lt_two_pow hx hshr
  have hw : 2 ^ (k + 1) ≤ 2 ^ w := Nat.pow_le_pow_right (by norm_num) (by omega)
  have heq : orShr w s x = x ||| (x >>> s) := by
    unfold orShr
    exact Nat.mod_eq_of_lt (lt_of_lt_of_le hor hw)
  rw [heq]
  refine ⟨hor, ?_⟩
  intro i hi hlt
  rw [Nat.testBit_or, Nat.testBit_shiftRight]
  by_cases hc : k < i + m
  · simp [hbits i hi hc]
  · have := hbits (s + i) (by omega) (by omega)
    simp [this]

/-- Every entry of `msb_MultiplyDeBruijnBitPosition` is at most 31. -/
theorem msbLookup_le (v : Nat) : msbLookup v ≤ 31 := by
  unfold msbLookup
  have hidx : (v * 0x07C4ACDD % 2 ^ 32) >>> 27 < 32 := by
    rw [Nat.shiftRight_eq_div_pow]
    have := Nat.mod_lt (v * 0x07C4ACDD) (show 0 < 2 ^ 32 by norm_num)
    omega
  generalize (v * 0x07C4ACDD % 2 ^ 32) >>> 27 = j at hidx
  revert j
  decide

/-- The de Bruijn lookup of the 32-bit helpers on `2 ^ (k + 1) - 1`. -/
theorem msbLookup_ones : ∀ k, k < 32 → msbLookup (2 ^ (k + 1) - 1) = k := by
  decide

/-- The de Bruijn lookup of `bitScanReverse` on `2 ^ (k + 1) - 1`. -/
theorem index64Lookup_ones : ∀ k, k < 64 → index64Lookup (2 ^ (k + 1) - 1) = k := by
  decide

/-- The fold and lookup of `bitScanForward` on `2 ^ (i + 1) - 1`. -/
theorem bitScanForwardFold_ones : ∀ i, i < 64 → bitScanForwardFold (2 ^ (i + 1) - 1) = i := by
  decide

/-! ## The `msb` helpers and `bitScanReverse` -/

/-- The helper `msb32bit` on a value with top bit `k`. -/
theorem msb32bit_eq {k v : Nat} (hk : k < 32) (h1 : 2 ^ k ≤ v) (h2 : v < 2 ^ (k + 1)) :
    msb32bit v = k := by
  have b0 : ∀ i, i ≤ k → k < i + 1 → v.testBit i = true := by
    intro i hi hlt
    have : i = k := by omega
    exact this ▸ testBit_top h1 h2
  obtain ⟨x1, b1⟩ := orShr_fill hk h2 b0 (le_refl 1)
  obtain ⟨x2, b2⟩ := orShr_fill hk x1 b1 (show 2 ≤ 1 + 1 by norm_num)
  obtain ⟨x3, b3⟩ := orShr_fill hk x2 b2 (show 4 ≤ 1 + 1 + 2 by norm_num)
  obtain ⟨x4, b4⟩ := orShr_fill hk x3 b3 (show 8 ≤ 1 + 1 + 2 + 4 by norm_num)
  obtain ⟨x5, b5⟩ := orShr_fill hk x4 b4 (show 16 ≤ 1 + 1 + 2 + 4 + 8 by norm_num)
  have hones := eq_ones_of_bits x5 (fun i hi => b5 i hi (by omega))
  unfold msb32bit
  simp only []
  rw [hones]
  exact msbLookup_ones k hk

/-- The helper `msb16bit` on a value with top bit `k`. -/
theorem msb16bit_eq {k v : Nat} (hk : k < 16) (h1 : 2 ^ k ≤ v) (h2 : v < 2 ^ (k + 1)) :
    msb16bit v = k := by
  have b0 : ∀ i, i ≤ k → k < i + 1 → v.testBit i = true := by
    intro i hi hlt
    have : i = k := by omega
    exact this ▸ testBit_top h1 h2
  obtain ⟨x1, b1⟩ := orShr_fill hk h2 b0 (le_refl 1)
  obtain ⟨x2, b2⟩ := orShr_fill hk x1 b1 (show 2 ≤ 1 + 1 by norm_num)
  obtain ⟨x3, b3⟩ := orShr_fill hk x2 b2 (show 4 ≤ 1 + 1 + 2 by norm_num)
  obtain ⟨x4, b4⟩ := orShr_fill hk x3 b3 (show 8 ≤ 1 + 1 + 2 + 4 by norm_num)
  have hones := eq_ones_of_bits x4 (fun i hi => b4 i hi (by omega))
  unfold msb16bit
  simp only []
  rw [hones]
  exact msbLookup_ones k (by omega)

/-- The helper `msb8bit` on a value with top bit `k`. -/
theorem msb8bit_eq {k v : Nat} (hk : k < 8) (h1 : 2 ^ k ≤ v) (h2 : v < 2 ^ (k + 1)) :
    msb8bit v = k := by
  have hk16 : k < 16 := by omega
  have b0 : ∀ i, i ≤ k → k < i + 1 → v.testBit i = true := by
    intro i hi hlt
    have : i = k := by omega
    exact this ▸ testBit_top h1 h2
  obtain ⟨x1, b1⟩ := orShr_fill hk16 h2 b0 (le_refl 1)
  obtain ⟨x2, b2⟩ := orShr_fill hk16 x1 b1 (show 2 ≤ 1 + 1 by norm_num)
  obtain ⟨x3, b3⟩ := orShr_fill hk16 x2 b2 (show 4 ≤ 1 + 1 + 2 by norm_num)
  have hones := eq_ones_of_bits x3 (fun i hi => b3 i hi (by omega))
  unfold msb8bit
  simp only []
  rw [hones]
  exact msbLookup_ones k (by omega)

/-- The body of `bitScanReverse` on a value with top bit `k`. -/
theorem bitScanReverseCore_eq {k v : Nat} (hk : k < 64) (h1 : 2 ^ k ≤ v)
    (h2 : v < 2 ^ (k + 1)) : bitScanReverseCore v = k := by
  have b0 : ∀ i, i ≤ k → k < i + 1 → v.testBit i = true := by
    intro i hi hlt
    have : i = k := by omega
    exact this ▸ testBit_top h1 h2
  obtain ⟨x1, b1⟩ := orShr_fill hk h2 b0 (le_refl 1)
  obtain ⟨x2, b2⟩ := orShr_fill hk x1 b1 (show 2 ≤ 1 + 1 by norm_num)
  obtain ⟨x3, b3⟩ := orShr_fill hk x2 b2 (show 4 ≤ 1 + 1 + 2 by norm_num)
  obtain ⟨x4, b4⟩ := orShr_fill hk x3 b3 (show 8 ≤ 1 + 1 + 2 + 4 by norm_num)
  obtain ⟨x5, b5⟩ := orShr_fill hk x4 b4 (show 16 ≤ 1 + 1 + 2 + 4 + 8 by norm_num)
  obtain ⟨x6, b6⟩ := orShr_fill hk x5 b5 (show 32 ≤ 1 + 1 + 2 + 4 + 8 + 16 by norm_num)
  have hones := eq_ones_of_bits x6 (fun i hi => b6 i hi (by omega))
  unfold bitScanReverseCore
  simp only []
  rw [hones]
  exact index64Lookup_ones k hk

/-- The floor of the binary logarithm of a positive number below `2 ^ w` is below `w`, and
the number lies between the corresponding powers of two. -/
theorem log2_bounds {w v : Nat} (hv : 0 < v) (hw : v < 2 ^ w) :
    Nat.log 2 v < w ∧ 2 ^ Nat.log 2 v ≤ v ∧ v < 2 ^ (Nat.log 2 v + 1) := by
  have h1 : 2 ^ Nat.log 2 v ≤ v := Nat.pow_log_le_self 2 (Nat.pos_iff_ne_zero.mp hv)
  have h2 : v < 2 ^ (Nat.log 2 v + 1) := Nat.lt_pow_succ_log_self (by norm_num) v
  refine ⟨?_, h1, h2⟩
  exact (Nat.pow_lt_pow_iff_right (show 1 < 2 by norm_num)).1 (lt_of_le_of_lt h1 hw)

/-- The helper `msb32bit` is the floor of the binary logarithm on nonzero 32-bit words. -/
theorem msb32bit_eq_log {v : Nat} (hv : 0 < v) (hw : v < 2 ^ 32) :
    msb32bit v = Nat.log 2 v := by
  obtain ⟨hk, h1, h2⟩ := log2_bounds hv hw
  exact msb32bit_eq hk h1 h2

/-- The helper `msb16bit` is the floor of the binary logarithm on nonzero 16-bit words. -/
theorem msb16bit_eq_log {v : Nat} (hv : 0 < v) (hw : v < 2 ^ 16) :
    msb16bit v = Nat.log 2 v := by
  obtain ⟨hk, h1, h2⟩ := log2_bounds hv hw
  exact msb16bit_eq hk h1 h2

/-- The helper `msb8bit` is the floor of the binary logarithm on nonzero 8-bit values. -/
theorem msb8bit_eq_log {v : Nat} (hv : 0 < v) (hw : v < 2 ^ 8) :
    msb8bit v = Nat.log 2 v := by
  obtain ⟨hk, h1, h2⟩ := log2_bounds hv hw
  exact msb8bit_eq hk h1 h2

/-- The function `bitScanReverse` returns the floor of the binary logarithm on nonzero 64-bit
words. -/
theorem bitScanReverse_eq_log {v : Nat} (hv : 0 < v) (hw : v < 2 ^ 64) :
    bitScanReverse v = .ok (Nat.log 2 v) := by
  obtain ⟨hk, h1, h2⟩ := log2_bounds hv hw
  unfold bitScanReverse
  rw [if_neg (Nat.pos_iff_ne_zero.mp hv), bitScanReverseCore_eq hk h1 h2]

/-! ## The function `bitScanForward` -/

/-- The expression `v ^ (v - 1)` is the mask `2 ^ (i + 1) - 1`, where `i` is the index of the
lowest set bit of `v`. -/
theorem xor_pred_spec : ∀ v : Nat, 0 < v →
    ∃ i, v ^^^ (v - 1) = 2 ^ (i + 1) - 1 ∧ v.testBit i = true ∧
      ∀ k, k < i → v.testBit k = false := by
  intro v
  induction v using Nat.strong_induction_on with
  | _ v ih =>
    intro hv
    rcases Nat.mod_two_eq_zero_or_one v with hpar | hpar
    · -- even: recurse on `v / 2`
      have hm : 0 < v / 2 := by omega
      obtain ⟨i, hx, hb, hlow⟩ := ih (v / 2) (by omega) hm
      refine ⟨i + 1, ?_, ?_, ?_⟩
      · apply Nat.eq_of_testBit_eq
        intro j
        rw [Nat.testBit_xor, Nat.testBit_two_pow_sub_one]
        cases j with
        | zero =>
          have h1 : (v - 1) % 2 = 1 := by omega
          simp [Nat.testBit_zero, hpar, h1]
        | succ n =>
          have h1 : (v - 1) / 2 = v / 2 - 1 := by omega
          rw [Nat.testBit_succ, Nat.testBit_succ, h1, ← Nat.testBit_xor, hx,
            Nat.testBit_two_pow_sub_one]
          simp
      · rw [Nat.testBit_succ]
        exact hb
      · intro k hk
        cases k with
        | zero => simp [Nat.testBit_zero, hpar]
        | succ n =>
          rw [Nat.testBit_succ]
          exact hlow n (by omega)
    · -- odd: the lowest set bit is bit 0
      refine ⟨0, ?_, ?_, ?_⟩
      · apply Nat.eq_of_testBit_eq
        intro j
        rw [Nat.testBit_xor, Nat.testBit_two_pow_sub_one]
        cases j with
        | zero =>
          have h1 : (v - 1) % 2 = 0 := by omega
          simp [Nat.testBit_zero, hpar, h1]
        | succ n =>
          have h1 : (v - 1) / 2 = v / 2 := by omega
          rw [Nat.testBit_succ, Nat.testBit_succ, h1]
          simp
      · simp [Nat.testBit_zero, hpar]
      · intro k hk
        omega

/-- The function `bitScanForward` on a nonzero 64-bit word: it returns an index whose bit is
set and below which no bit is set. -/
theorem bitScanForward_spec {v : Nat} (hv : 0 < v) (hw : v < 2 ^ 64) :
    ∃ i, bitScanForward v = .ok i ∧ i < 64 ∧ v.testBit i = true ∧
      ∀ k, k < i → v.testBit k = false := by
  obtain ⟨i, hx, hb, hlow⟩ := xor_pred_spec v hv
  have hi : i < 64 :=
    (Nat.pow_lt_pow_iff_right (show 1 < 2 by norm_num)).1
      (lt_of_le_of_lt (Nat.testBit_implies_ge hb) hw)
  refine ⟨i, ?_, hi, hb, hlow⟩
  have hsub : (v + 2 ^ 64 - 1) % 2 ^ 64 = v - 1 := by omega
  unfold bitScanForward bitScanForwardCore
  rw [if_neg (Nat.pos_iff_ne_zero.mp hv), hsub, hx, bitScanForwardFold_ones i hi]

/-! ## The renormalisation loop -/

/-- The value of `(1 << rShifts) - 1` for the shift amounts below 32. -/
theorem halfOf_eq : ∀ s, s ≤ 31 → halfOf s = 2 ^ s - 1 := by
  decide

/-- The value of `(1 << rShifts) - 1` for `rShifts = 32`: the shift count wraps to 0. -/
theorem halfOf_32 : halfOf 32 = 0 := by
  decide

/-- The addend `half` is at most `2 ^ rShifts - 1` for every shift amount that occurs. -/
theorem halfOf_le : ∀ s, s ≤ 32 → halfOf s ≤ 2 ^ s - 1 := by
  decide

/-- A round `v = (v + half) >> rShifts` with `rShifts ≥ 1` makes `v ≥ 2` strictly smaller. -/
theorem round_lt {w s v : Nat} (hs1 : 1 ≤ s) (hs : s ≤ 32) (hv : 2 ≤ v) :
    ((v + halfOf s) % 2 ^ w) >>> s < v := by
  rw [Nat.shiftRight_eq_div_pow]
  have hp : 2 ^ 1 ≤ 2 ^ s := Nat.pow_le_pow_right (by norm_num) hs1
  have h1 : (v + halfOf s) % 2 ^ w ≤ v + (2 ^ s - 1) :=
    le_trans (Nat.mod_le _ _) (Nat.add_le_add_left (halfOf_le s hs) v)
  have h2 : (v + (2 ^ s - 1)) / 2 ^ s < v := by
    rw [Nat.div_lt_iff_lt_mul (by positivity)]
    generalize 2 ^ s = q at hp
    obtain ⟨a, rfl⟩ := Nat.exists_eq_add_of_le hv
    obtain ⟨b, rfl⟩ := Nat.exists_eq_add_of_le hp
    have : 2 ^ 1 + b - 1 = b + 1 := by omega
    rw [this]
    nlinarith
  exact lt_of_le_of_lt (Nat.div_le_div_right h1) h2

/-- The helper `msb16bit` returns a table entry, at most 31. -/
theorem msb16bit_le (v : Nat) : msb16bit v ≤ 31 := by
  unfold msb16bit
  exact msbLookup_le _

/-- The helper `msb32bit` returns a table entry, at most 31. -/
theorem msb32bit_le (v : Nat) : msb32bit v ≤ 31 := by
  unfold msb32bit
  exact msbLookup_le _

/-- The helper `msb8bit` returns a table entry, at most 31. -/
theorem msb8bit_le (v : Nat) : msb8bit v ≤ 31 := by
  unfold msb8bit
  exact msbLookup_le _

/-- A round of the 32-bit renormalisation loop makes the working value smaller. -/
theorem renormRound32_lt {v : Nat} (n : Nat) (hv : 2 ^ 16 ≤ v) :
    (renormRound32 v n).1 < v := by
  have hm := msb16bit_le ((v >>> 16) % 2 ^ 16)
  have hs : (msb16bit ((v >>> 16) % 2 ^ 16) + 1) % 2 ^ 32
      = msb16bit ((v >>> 16) % 2 ^ 16) + 1 := Nat.mod_eq_of_lt (by omega)
  unfold renormRound32
  simp only [hs]
  exact round_lt (by omega) (by omega) (by omega)

/-- A round of the 64-bit renormalisation loop makes the working value smaller. -/
theorem renormRound64_lt {v : Nat} (n : Nat) (hv : 2 ^ 32 ≤ v) :
    (renormRound64 v n).1 < v := by
  have hm := msb32bit_le ((v >>> 32) % 2 ^ 32)
  have hs : (msb32bit ((v >>> 32) % 2 ^ 32) + 1) % 2 ^ 32
      = msb32bit ((v >>> 32) % 2 ^ 32) + 1 := Nat.mod_eq_of_lt (by omega)
  unfold renormRound64
  simp only [hs]
  exact round_lt (by omega) (by omega) (by omega)

/-- With at least `v` rounds available the 32-bit loop does not depend on the bound. -/
theorem renormWhile32_fuel : ∀ (f g v n : Nat), v ≤ f → v ≤ g →
    renormWhile32 f v n = renormWhile32 g v n := by
  intro f
  induction f with
  | zero =>
    intro g v n hf _
    have hv : v = 0 := by omega
    subst hv
    cases g <;> simp [renormWhile32]
  | succ f ih =>
    intro g v n hf hg
    cases g with
    | zero =>
      have hv : v = 0 := by omega
      subst hv
      simp [renormWhile32]
    | succ g =>
      simp only [renormWhile32]
      split
      · next h =>
        have := renormRound32_lt n h
        exact ih g _ _ (by omega) (by omega)
      · rfl

/-- With at least `v` rounds available the 64-bit loop does not depend on the bound. -/
theorem renormWhile64_fuel : ∀ (f g v n : Nat), v ≤ f → v ≤ g →
    renormWhile64 f v n = renormWhile64 g v n := by
  intro f
  induction f with
  | zero =>
    intro g v n hf _
    have hv : v = 0 := by omega
    subst hv
    cases g <;> simp [renormWhile64]
  | succ f ih =>
    intro g v n hf hg
    cases g with
    | zero =>
      have hv : v = 0 := by omega
      subst hv
      simp [renormWhile64]
    | succ g =>
      simp only [renormWhile64]
      split
      · next h =>
        have := renormRound64_lt n h
        exact ih g _ _ (by omega) (by omega)
      · rfl

/-- The equation of `while (v >= (1U<<16)) { ... }`: either the condition fails and the
state is returned, or one round is run and the loop is entered again. -/
theorem renorm32_unfold (v n : Nat) :
    renorm32 v n =
      if 2 ^ 16 ≤ v then renorm32 (renormRound32 v n).1 (renormRound32 v n).2 else (v, n) := by
  unfold renorm32
  cases v with
  | zero => simp [renormWhile32]
  | succ u =>
    simp only [renormWhile32]
    split
    · next h =>
      have := renormRound32_lt n h
      exact renormWhile32_fuel _ _ _ _ (by omega) (le_refl _)
    · rfl

/-- The equation of `while (v >= (1ULL<<32)) { ... }`. -/
theorem renorm64_unfold (v n : Nat) :
    renorm64 v n =
      if 2 ^ 32 ≤ v then renorm64 (renormRound64 v n).1 (renormRound64 v n).2 else (v, n) := by
  unfold renorm64
  cases v with
  | zero => simp [renormWhile64]
  | succ u =>
    simp only [renormWhile64]
    split
    · next h =>
      have := renormRound64_lt n h
      exact renormWhile64_fuel _ _ _ _ (by omega) (le_refl _)
    · rfl

/-- The 32-bit loop ends with its condition false. -/
theorem renorm32_exit (v n : Nat) : (renorm32 v n).1 < 2 ^ 16 := by
  induction v using Nat.strong_induction_on generalizing n with
  | _ v ih =>
    rw [renorm32_unfold]
    split
    · next h => exact ih _ (renormRound32_lt n h) _
    · next h => exact Nat.lt_of_not_le h

/-- The 64-bit loop ends with its condition false. -/
theorem renorm64_exit (v n : Nat) : (renorm64 v n).1 < 2 ^ 32 := by
  induction v using Nat.strong_induction_on generalizing n with
  | _ v ih =>
    rw [renorm64_unfold]
    split
    · next h => exact ih _ (renormRound64_lt n h) _
    · next h => exact Nat.lt_of_not_le h

/-! ## The `for` loop and the result bits -/

/-- One iteration appends at most one bit to `resultBits`. -/
theorem squareExtract_resultBits (w v n r : Nat) :
    (squareExtract w v n r).resultBits ≤ 2 * r + 1 := by
  unfold squareExtract
  simp only []
  have h1 : r * 2 % 2 ^ 32 ≤ r * 2 := Nat.mod_le _ _
  have h2 : (r * 2 % 2 ^ 32 + 1) % 2 ^ 32 ≤ r * 2 % 2 ^ 32 + 1 := Nat.mod_le _ _
  split
  · show (r * 2 % 2 ^ 32 + 1) % 2 ^ 32 ≤ 2 * r + 1
    omega
  · show r * 2 % 2 ^ 32 ≤ 2 * r + 1
    omega

/-- After `k` iterations of a body that appends at most one bit per iteration, `resultBits`
has grown by at most `k` bits. -/
theorem iterate_resultBits (f : LoopState → LoopState)
    (hf : ∀ s, (f s).resultBits ≤ 2 * s.resultBits + 1) :
    ∀ (k : Nat) (s : LoopState), (f^[k] s).resultBits + 1 ≤ 2 ^ k * (s.resultBits + 1) := by
  intro k
  induction k with
  | zero => intro s; simp
  | succ k ih =>
    intro s
    rw [Function.iterate_succ_apply]
    calc (f^[k] (f s)).resultBits + 1 ≤ 2 ^ k * ((f s).resultBits + 1) := ih (f s)
      _ ≤ 2 ^ k * (2 * s.resultBits + 1 + 1) :=
          Nat.mul_le_mul_left _ (Nat.add_le_add_right (hf s) 1)
      _ = 2 ^ (k + 1) * (s.resultBits + 1) := by ring

/-- From `resultBits = 0`, `k` iterations of the 32-bit body leave `resultBits < 2 ^ k`. -/
theorem iter32_resultBits_lt (k : Nat) (s : LoopState) (h0 : s.resultBits = 0) :
    (iterBody32^[k] s).resultBits < 2 ^ k := by
  have := iterate_resultBits iterBody32
    (fun t => squareExtract_resultBits 32 _ _ t.resultBits) k s
  rw [h0] at this
  omega

/-- From `resultBits = 0`, `k` iterations of the 64-bit body leave `resultBits < 2 ^ k`. -/
theorem iter64_resultBits_lt (k : Nat) (s : LoopState) (h0 : s.resultBits = 0) :
    (iterBody64^[k] s).resultBits < 2 ^ k := by
  have := iterate_resultBits iterBody64
    (fun t => squareExtract_resultBits 64 _ _ t.resultBits) k s
  rw [h0] at this
  omega

/-! ## The routines `ilog2_32` and `ilog2_64` -/

/-- On a nonzero 32-bit word and `iteCnt ≤ 28`, `ilog2_32` returns normally: the slot
receives the floor of the binary logarithm and the returned value is below `2 ^ iteCnt`. -/
theorem ilog2_32_ok {v F : Nat} (p : Nat) (hv : 0 < v) (hw : v < 2 ^ 32) (hF : F ≤ 28) :
    ∃ frac, ilog2_32 v F p = .ok (frac, Nat.log 2 v) ∧ frac < 2 ^ F := by
  obtain ⟨tz, hbsf, -, -, -⟩ :=
    bitScanForward_spec hv (lt_trans hw (by norm_num : (2:Nat) ^ 32 < 2 ^ 64))
  have hne : v ≠ 0 := Nat.pos_iff_ne_zero.mp hv
  simp only [ilog2_32, hF, not_true_eq_false, if_false, hne, hbsf, msb32bit_eq_log hv hw]
  split
  · exact ⟨0, rfl, by positivity⟩
  · exact ⟨_, rfl, iter32_resultBits_lt F _ rfl⟩

/-- On a nonzero 64-bit word and `iteCnt ≤ 30`, `ilog2_64` returns normally: the slot
receives the floor of the binary logarithm and the returned value is below `2 ^ iteCnt`. -/
theorem ilog2_64_ok {v F : Nat} (p : Nat) (hv : 0 < v) (hw : v < 2 ^ 64) (hF : F ≤ 30) :
    ∃ frac, ilog2_64 v F p = .ok (frac, Nat.log 2 v) ∧ frac < 2 ^ F := by
  obtain ⟨tz, hbsf, -, -, -⟩ := bitScanForward_spec hv hw
  have hne : v ≠ 0 := Nat.pos_iff_ne_zero.mp hv
  simp only [ilog2_64, hF, not_true_eq_false, if_false, hne, hbsf,
    bitScanReverse_eq_log hv hw]
  split
  · exact ⟨0, rfl, by positivity⟩
  · exact ⟨_, rfl, iter64_resultBits_lt F _ rfl⟩

/-- On powers of two both bit scans return the exponent. -/
theorem bitScan_two_pow : ∀ k, k < 64 →
    bitScanForward (2 ^ k) = .ok k ∧ bitScanReverse (2 ^ k) = .ok k := by
  decide

/-- On powers of two `msb32bit` returns the exponent. -/
theorem msb32bit_two_pow : ∀ k, k < 32 → msb32bit (2 ^ k) = k := by
  decide

/-! ## The shape of a call -/

/-- The index returned by `bitScanForward` on a nonzero 64-bit word, as a function. -/
theorem bitScanForwardCore_spec {v : Nat} (hv : 0 < v) (hw : v < 2 ^ 64) :
    bitScanForward v = .ok (bitScanForwardCore v) ∧ v.testBit (bitScanForwardCore v) = true ∧
      ∀ k, k < bitScanForwardCore v → v.testBit k = false := by
  obtain ⟨i, h, -, hb, hlow⟩ := bitScanForward_spec hv hw
  have hi : bitScanForwardCore v = i := by
    unfold bitScanForward at h
    rw [if_neg (Nat.pos_iff_ne_zero.mp hv)] at h
    injection h
  rw [hi]
  exact ⟨h, hb, hlow⟩

/-- The trailing-zero count of a nonzero word is at most the position of its top bit. -/
theorem bitScanForwardCore_le_log {v : Nat} (hv : 0 < v) (hw : v < 2 ^ 64) :
    bitScanForwardCore v ≤ Nat.log 2 v := by
  obtain ⟨-, hb, -⟩ := bitScanForwardCore_spec hv hw
  have h1 := Nat.testBit_implies_ge hb
  have h2 : v < 2 ^ (Nat.log 2 v + 1) := Nat.lt_pow_succ_log_self (by norm_num) v
  have := (Nat.pow_lt_pow_iff_right (show 1 < 2 by norm_num)).1 (lt_of_le_of_lt h1 h2)
  omega

/-- The result of `ilog2_32` on a nonzero 32-bit word within the iteration bound, in one
equation: the fast path, or `iteCnt` iterations from the normalised start state. -/
theorem ilog2_32_eq {v F : Nat} (p : Nat) (hv : 0 < v) (hw : v < 2 ^ 32) (hF : F ≤ 28) :
    ilog2_32 v F p = .ok
      (if Nat.log 2 v = bitScanForwardCore v then 0
        else (iterBody32^[F]
          { v := v >>> bitScanForwardCore v
            nFracBits := Nat.log 2 v - bitScanForwardCore v
            resultBits := 0 }).resultBits,
       Nat.log 2 v) := by
  have hw64 : v < 2 ^ 64 := lt_trans hw (by norm_num)
  obtain ⟨hbsf, -, -⟩ := bitScanForwardCore_spec hv hw64
  have hle := bitScanForwardCore_le_log hv hw64
  obtain ⟨hlog, -, -⟩ := log2_bounds hv hw
  have hne : v ≠ 0 := Nat.pos_iff_ne_zero.mp hv
  have hn : (Nat.log 2 v + 2 ^ 64 - bitScanForwardCore v) % 2 ^ 64
      = Nat.log 2 v - bitScanForwardCore v := by omega
  simp only [ilog2_32, hF, not_true_eq_false, if_false, hne, hbsf, msb32bit_eq_log hv hw, hn]
  split <;> rfl

/-- The result of `ilog2_64` on a nonzero 64-bit word within the iteration bound, in one
equation. -/
theorem ilog2_64_eq {v F : Nat} (p : Nat) (hv : 0 < v) (hw : v < 2 ^ 64) (hF : F ≤ 30) :
    ilog2_64 v F p = .ok
      (if Nat.log 2 v = bitScanForwardCore v then 0
        else (iterBody64^[F]
          { v := v >>> bitScanForwardCore v
            nFracBits := Nat.log 2 v - bitScanForwardCore v
            resultBits := 0 }).resultBits,
       Nat.log 2 v) := by
  obtain ⟨hbsf, -, -⟩ := bitScanForwardCore_spec hv hw
  have hle := bitScanForwardCore_le_log hv hw
  obtain ⟨hlog, -, -⟩ := log2_bounds hv hw
  have hne : v ≠ 0 := Nat.pos_iff_ne_zero.mp hv
  have hn : (Nat.log 2 v + 2 ^ 64 - bitScanForwardCore v) % 2 ^ 64
      = Nat.log 2 v - bitScanForwardCore v := by omega
  simp only [ilog2_64, hF, not_true_eq_false, if_false, hne, hbsf,
    bitScanReverse_eq_log hv hw, hn]
  split <;> rfl

/-- Dropping the bit appended by one iteration gives back the previous `resultBits`. -/
theorem squareExtract_resultBits_shr (w v n r : Nat) (hr : r < 2 ^ 31) :
    (squareExtract w v n r).resultBits >>> 1 = r := by
  have h1 : r * 2 % 2 ^ 32 = r * 2 := Nat.mod_eq_of_lt (by omega)
  have h2 : (r * 2 + 1) % 2 ^ 32 = r * 2 + 1 := Nat.mod_eq_of_lt (by omega)
  unfold squareExtract
  simp only [h1, h2]
  split
  · show (r * 2 + 1) >>> 1 = r
    rw [Nat.shiftRight_eq_div_pow]
    omega
  · show (r * 2) >>> 1 = r
    rw [Nat.shiftRight_eq_div_pow]
    omega

/-! ## Trailing zeros, scaling and the first iteration -/

/-- The index of the lowest set bit is unique. -/
theorem lowest_bit_unique {v i j : Nat} (hi : v.testBit i = true)
    (hli : ∀ k, k < i → v.testBit k = false) (hj : v.testBit j = true)
    (hlj : ∀ k, k < j → v.testBit k = false) : i = j := by
  rcases Nat.lt_trichotomy i j with h | h | h
  · rw [hlj i h] at hi
    exact absurd hi (by simp)
  · exact h
  · rw [hli j h] at hj
    exact absurd hj (by simp)

/-- An odd word has no trailing zeros. -/
theorem bitScanForwardCore_odd {v : Nat} (hw : v < 2 ^ 64) (hodd : v % 2 = 1) :
    bitScanForwardCore v = 0 := by
  obtain ⟨-, hb, hlow⟩ := bitScanForwardCore_spec (show 0 < v by omega) hw
  have h0 : v.testBit 0 = true := by simp [Nat.testBit_zero, hodd]
  exact lowest_bit_unique hb hlow h0 (fun k hk => absurd hk (Nat.not_lt_zero k))

/-- A word whose bits below `t` are zero is its own shift by `t`, shifted back. -/
theorem shiftRight_mul_two_pow {v t : Nat} (hlow : ∀ k, k < t → v.testBit k = false) :
    (v >>> t) * 2 ^ t = v := by
  have hmod : v % 2 ^ t = 0 := by
    apply Nat.eq_of_testBit_eq
    intro j
    rw [Nat.testBit_mod_two_pow, Nat.zero_testBit]
    by_cases hj : j < t
    · simp [hlow j hj]
    · simp [hj]
  rw [Nat.shiftRight_eq_div_pow]
  have := Nat.div_add_mod v (2 ^ t)
  rw [hmod, Nat.add_zero, Nat.mul_comm] at this
  exact this

/-- The working value after stripping the trailing zeros is odd. -/
theorem shiftRight_core_odd {v : Nat} (hv : 0 < v) (hw : v < 2 ^ 64) :
    (v >>> bitScanForwardCore v) % 2 = 1 := by
  obtain ⟨-, hb, -⟩ := bitScanForwardCore_spec hv hw
  rw [Nat.testBit_to_div_mod] at hb
  rw [Nat.shiftRight_eq_div_pow]
  simpa using hb

/-- Multiplying by `2 ^ k` adds `k` to the floor of the binary logarithm. -/
theorem log_mul_two_pow {v : Nat} (k : Nat) (hv : 0 < v) :
    Nat.log 2 (v * 2 ^ k) = Nat.log 2 v + k := by
  have h1 : 2 ^ Nat.log 2 v ≤ v := Nat.pow_log_le_self 2 (Nat.pos_iff_ne_zero.mp hv)
  have h2 : v < 2 ^ (Nat.log 2 v + 1) := Nat.lt_pow_succ_log_self (by norm_num) v
  apply Nat.log_eq_of_pow_le_of_lt_pow
  · rw [Nat.pow_add]
    exact Nat.mul_le_mul_right _ h1
  · have : 2 ^ (Nat.log 2 v + k + 1) = 2 ^ (Nat.log 2 v + 1) * 2 ^ k := by ring
    rw [this]
    exact Nat.mul_lt_mul_of_pos_right h2 (Nat.two_pow_pos k)

/-- Multiplying by `2 ^ k` adds `k` to the trailing-zero count. -/
theorem bitScanForwardCore_mul_two_pow {v : Nat} (k : Nat) (hv : 0 < v)
    (hw : v * 2 ^ k < 2 ^ 64) :
    bitScanForwardCore (v * 2 ^ k) = bitScanForwardCore v + k := by
  have hv64 : v < 2 ^ 64 :=
    lt_of_le_of_lt (Nat.le_mul_of_pos_right v (Nat.two_pow_pos k)) hw
  obtain ⟨-, hb, hlow⟩ := bitScanForwardCore_spec hv hv64
  obtain ⟨-, hb2, hlow2⟩ :=
    bitScanForwardCore_spec (Nat.mul_pos hv (Nat.two_pow_pos k)) hw
  refine lowest_bit_unique hb2 hlow2 ?_ ?_
  · rw [Nat.mul_comm, Nat.testBit_mul_pow_two]
    simp [hb]
  · intro j hj
    rw [Nat.mul_comm, Nat.testBit_mul_pow_two]
    by_cases hjk : k ≤ j
    · simp [hjk, hlow (j - k) (by omega)]
    · simp [hjk]

/-- A right shift is nonzero exactly when the value reaches the power of two. -/
theorem shiftRight_ne_zero_iff (x s : Nat) : x >>> s ≠ 0 ↔ 2 ^ s ≤ x := by
  rw [Nat.shiftRight_eq_div_pow, Nat.pos_iff_ne_zero.symm, Nat.div_pos_iff]
  simp [Nat.two_pow_pos]

/-- Below `2 ^ 16` the 32-bit renormalisation loop does nothing. -/
theorem renorm32_small {v : Nat} (n : Nat) (h : v < 2 ^ 16) : renorm32 v n = (v, n) := by
  rw [renorm32_unfold, if_neg (Nat.not_le.mpr h)]

/-- Below `2 ^ 32` the 64-bit renormalisation loop does nothing. -/
theorem renorm64_small {v : Nat} (n : Nat) (h : v < 2 ^ 32) : renorm64 v n = (v, n) := by
  rw [renorm64_unfold, if_neg (Nat.not_le.mpr h)]

/-- The statements after the inner loop when nothing wraps: the square, the doubled
`nFracBits`, and the extracted bit, which is 1 exactly when `2 ^ (2n + 1) ≤ v * v`. -/
theorem squareExtract_exact {w v n r : Nat} (hv : v * v < 2 ^ w) (hn : n < 2 ^ 62)
    (hr : r < 2 ^ 31) :
    squareExtract w v n r =
      if 2 ^ (2 * n + 1) ≤ v * v then
        { v := v * v, nFracBits := 2 * n + 1, resultBits := 2 * r + 1 }
      else { v := v * v, nFracBits := 2 * n, resultBits := 2 * r } := by
  have h1 : v * v % 2 ^ w = v * v := Nat.mod_eq_of_lt hv
  have h2 : n * 2 % 2 ^ 64 = 2 * n := by omega
  have h3 : (2 * n + 1) % 2 ^ 64 = 2 * n + 1 := by omega
  have h4 : r * 2 % 2 ^ 32 = 2 * r := by omega
  have h5 : (2 * r + 1) % 2 ^ 32 = 2 * r + 1 := by omega
  unfold squareExtract
  simp only [h1, h2, h3, h4, h5, shiftRight_ne_zero_iff]

/-- Once the working value and `resultBits` are 0 an iteration of the 32-bit body keeps them
0 (a right shift of 0 is 0). -/
theorem iterBody32_zero (n : Nat) :
    iterBody32 { v := 0, nFracBits := n, resultBits := 0 } =
      { v := 0, nFracBits := n * 2 % 2 ^ 64, resultBits := 0 } := by
  unfold iterBody32
  simp only [renorm32_small n (show 0 < 2 ^ 16 by norm_num)]
  simp [squareExtract]

/-- From a state with working value 0 and `resultBits` 0, every number of iterations of the
32-bit body leads to such a state. -/
theorem iterate32_zero : ∀ (i n : Nat), ∃ m,
    iterBody32^[i] { v := 0, nFracBits := n, resultBits := 0 } =
      { v := 0, nFracBits := m, resultBits := 0 } := by
  intro i
  induction i with
  | zero => intro n; exact ⟨n, rfl⟩
  | succ i ih =>
    intro n
    rw [Function.iterate_succ_apply, iterBody32_zero]
    exact ih _

/-! ## One renormalisation round -/

/-- The floor of the binary logarithm of `v / 2 ^ b` for `v ≥ 2 ^ b`. -/
theorem log_div_two_pow {v b : Nat} (h : 2 ^ b ≤ v) :
    b ≤ Nat.log 2 v ∧ Nat.log 2 (v / 2 ^ b) = Nat.log 2 v - b := by
  have hv : 0 < v := lt_of_lt_of_le (Nat.two_pow_pos b) h
  have h1 : 2 ^ Nat.log 2 v ≤ v := Nat.pow_log_le_self 2 (Nat.pos_iff_ne_zero.mp hv)
  have h2 : v < 2 ^ (Nat.log 2 v + 1) := Nat.lt_pow_succ_log_self (by norm_num) v
  have hb : b ≤ Nat.log 2 v := by
    have := (Nat.pow_lt_pow_iff_right (show 1 < 2 by norm_num)).1 (lt_of_le_of_lt h h2)
    omega
  refine ⟨hb, Nat.log_eq_of_pow_le_of_lt_pow ?_ ?_⟩
  · rw [Nat.le_div_iff_mul_le (Nat.two_pow_pos b), ← Nat.pow_add, Nat.sub_add_cancel hb]
    exact h1
  · rw [Nat.div_lt_iff_lt_mul (Nat.two_pow_pos b), ← Nat.pow_add]
    have : Nat.log 2 v - b + 1 + b = Nat.log 2 v + 1 := by omega
    rw [this]
    exact h2

/-- The shift amount of a round of the 32-bit loop: `msb16bit(v >> 16) + 1` is
`⌊log2 v⌋ - 15`, between 1 and 16. -/
theorem rShifts32_eq {v : Nat} (h1 : 2 ^ 16 ≤ v) (h2 : v < 2 ^ 32) :
    (v >>> 16) % 2 ^ 16 = v >>> 16 ∧
    msb16bit (v >>> 16) + 1 = Nat.log 2 v - 15 ∧
    16 ≤ Nat.log 2 v ∧ Nat.log 2 v ≤ 31 := by
  obtain ⟨hb, hlog⟩ := log_div_two_pow h1
  obtain ⟨hL, -, -⟩ := log2_bounds (lt_of_lt_of_le (Nat.two_pow_pos 16) h1) h2
  have hx1 : 0 < v >>> 16 := by
    rw [Nat.shiftRight_eq_div_pow]
    exact Nat.div_pos h1 (Nat.two_pow_pos 16)
  have hx2 : v >>> 16 < 2 ^ 16 := by
    rw [Nat.shiftRight_eq_div_pow]
    omega
  refine ⟨Nat.mod_eq_of_lt hx2, ?_, hb, by omega⟩
  rw [msb16bit_eq_log hx1 hx2, Nat.shiftRight_eq_div_pow, hlog]
  omega

/-- The shift amount of a round of the 64-bit loop: `msb32bit(v >> 32) + 1` is
`⌊log2 v⌋ - 31`, between 1 and 32. -/
theorem rShifts64_eq {v : Nat} (h1 : 2 ^ 32 ≤ v) (h2 : v < 2 ^ 64) :
    (v >>> 32) % 2 ^ 32 = v >>> 32 ∧
    msb32bit (v >>> 32) + 1 = Nat.log 2 v - 31 ∧
    32 ≤ Nat.log 2 v ∧ Nat.log 2 v ≤ 63 := by
  obtain ⟨hb, hlog⟩ := log_div_two_pow h1
  obtain ⟨hL, -, -⟩ := log2_bounds (lt_of_lt_of_le (Nat.two_pow_pos 32) h1) h2
  have hx1 : 0 < v >>> 32 := by
    rw [Nat.shiftRight_eq_div_pow]
    exact Nat.div_pos h1 (Nat.two_pow_pos 32)
  have hx2 : v >>> 32 < 2 ^ 32 := by
    rw [Nat.shiftRight_eq_div_pow]
    omega
  refine ⟨Nat.mod_eq_of_lt hx2, ?_, hb, by omega⟩
  rw [msb32bit_eq_log hx1 hx2, Nat.shiftRight_eq_div_pow, hlog]
  omega

/-- A round of the 32-bit loop, with the shift amount made explicit. -/
theorem renormRound32_eq {v : Nat} (n : Nat) (h1 : 2 ^ 16 ≤ v) (h2 : v < 2 ^ 32) :
    renormRound32 v n =
      (((v + (2 ^ (Nat.log 2 v - 15) - 1)) % 2 ^ 32) >>> (Nat.log 2 v - 15),
        (n + 2 ^ 64 - (Nat.log 2 v - 15)) % 2 ^ 64) := by
  obtain ⟨hmod, hs, hlo, hhi⟩ := rShifts32_eq h1 h2
  have hs32 : (Nat.log 2 v - 15) % 2 ^ 32 = Nat.log 2 v - 15 := Nat.mod_eq_of_lt (by omega)
  unfold renormRound32
  simp only [hmod, hs, hs32, halfOf_eq _ (show Nat.log 2 v - 15 ≤ 31 by omega)]

/-- A round of the 64-bit loop, with the shift amount made explicit. -/
theorem renormRound64_eq {v : Nat} (n : Nat) (h1 : 2 ^ 32 ≤ v) (h2 : v < 2 ^ 64) :
    renormRound64 v n =
      (((v + halfOf (Nat.log 2 v - 31)) % 2 ^ 64) >>> (Nat.log 2 v - 31),
        (n + 2 ^ 64 - (Nat.log 2 v - 31)) % 2 ^ 64) := by
  obtain ⟨hmod, hs, hlo, hhi⟩ := rShifts64_eq h1 h2
  have hs32 : (Nat.log 2 v - 31) % 2 ^ 32 = Nat.log 2 v - 31 := Nat.mod_eq_of_lt (by omega)
  unfold renormRound64
  simp only [hmod, hs, hs32]

/-- A round of the 64-bit loop on a working value of at least `2 ^ 63`: `rShifts` is 32,
the addend is 0 and the round only shifts, `v >> 32`, without rounding up. -/
theorem renormRound64_top {v : Nat} (n : Nat) (h1 : 2 ^ 63 ≤ v) (h2 : v < 2 ^ 64) :
    renormRound64 v n = (v / 2 ^ 32, (n + 2 ^ 64 - 32) % 2 ^ 64) := by
  have hlog : Nat.log 2 v = 63 := Nat.log_eq_of_pow_le_of_lt_pow h1 h2
  rw [renormRound64_eq n (by omega) h2, hlog]
  show (((v + halfOf 32) % 2 ^ 64) >>> 32, (n + 2 ^ 64 - 32) % 2 ^ 64) = _
  rw [halfOf_32, Nat.add_zero, Nat.mod_eq_of_lt h2, Nat.shiftRight_eq_div_pow]

/-- Adding at most `2 ^ s - 1` to `v < 2 ^ (b + s)` and shifting by `s` gives at most
`2 ^ b`, whether or not the addition wraps. -/
theorem round_le {w s v b h : Nat} (hh : h ≤ 2 ^ s - 1) (hv : v < 2 ^ (b + s)) :
    ((v + h) % 2 ^ w) >>> s ≤ 2 ^ b := by
  rw [Nat.shiftRight_eq_div_pow]
  have h1 : (v + h) % 2 ^ w ≤ v + (2 ^ s - 1) :=
    le_trans (Nat.mod_le _ _) (Nat.add_le_add_left hh v)
  have h2 : (v + (2 ^ s - 1)) / 2 ^ s < 2 ^ b + 1 := by
    rw [Nat.div_lt_iff_lt_mul (Nat.two_pow_pos s), Nat.add_mul, ← Nat.pow_add]
    have := Nat.two_pow_pos s
    omega
  have := Nat.div_le_div_right (c := 2 ^ s) h1
  omega

/-- A round of the 32-bit loop leaves at most `2 ^ 16`. -/
theorem renormRound32_le {v : Nat} (n : Nat) (h1 : 2 ^ 16 ≤ v) (h2 : v < 2 ^ 32) :
    (renormRound32 v n).1 ≤ 2 ^ 16 := by
  obtain ⟨-, -, hlo, hhi⟩ := rShifts32_eq h1 h2
  rw [renormRound32_eq n h1 h2]
  apply round_le (le_refl _)
  have : 16 + (Nat.log 2 v - 15) = Nat.log 2 v + 1 := by omega
  rw [this]
  exact Nat.lt_pow_succ_log_self (by norm_num) v

/-- A round of the 64-bit loop leaves at most `2 ^ 32`. -/
theorem renormRound64_le {v : Nat} (n : Nat) (h1 : 2 ^ 32 ≤ v) (h2 : v < 2 ^ 64) :
    (renormRound64 v n).1 ≤ 2 ^ 32 := by
  obtain ⟨-, -, hlo, hhi⟩ := rShifts64_eq h1 h2
  rw [renormRound64_eq n h1 h2]
  apply round_le (halfOf_le _ (by omega))
  have : 32 + (Nat.log 2 v - 31) = Nat.log 2 v + 1 := by omega
  rw [this]
  exact Nat.lt_pow_succ_log_self (by norm_num) v

/-- A round of the 32-bit loop on exactly `2 ^ 16` halves it. -/
theorem renormRound32_two_pow (n : Nat) : (renormRound32 (2 ^ 16) n).1 = 2 ^ 15 := by
  rw [renormRound32_eq n (le_refl _) (by norm_num)]
  have : Nat.log 2 (2 ^ 16) = 16 := Nat.log_pow (by norm_num) 16
  rw [this]
  show ((2 ^ 16 + (2 ^ (16 - 15) - 1)) % 2 ^ 32) >>> (16 - 15) = 2 ^ 15
  decide

/-- A round of the 64-bit loop on exactly `2 ^ 32` halves it. -/
theorem renormRound64_two_pow (n : Nat) : (renormRound64 (2 ^ 32) n).1 = 2 ^ 31 := by
  rw [renormRound64_eq n (le_refl _) (by norm_num)]
  have : Nat.log 2 (2 ^ 32) = 32 := Nat.log_pow (by norm_num) 32
  rw [this]
  show ((2 ^ 32 + halfOf (32 - 31)) % 2 ^ 64) >>> (32 - 31) = 2 ^ 31
  decide

/-! ## Counting the rounds of the inner loop -/

/-- With at least `v` rounds available the 32-bit round count does not depend on the
bound. -/
theorem renormCount32_fuel : ∀ (f g v n : Nat), v ≤ f → v ≤ g →
    renormCount32 f v n = renormCount32 g v n := by
  intro f
  induction f with
  | zero =>
    intro g v n hf _
    have hv : v = 0 := by omega
    subst hv
    cases g <;> simp [renormCount32]
  | succ f ih =>
    intro g v n hf hg
    cases g with
    | zero =>
      have hv : v = 0 := by omega
      subst hv
      simp [renormCount32]
    | succ g =>
      simp only [renormCount32]
      split
      · next h =>
        have := renormRound32_lt n h
        rw [ih g _ _ (by omega) (by omega)]
      · rfl

/-- With at least `v` rounds available the 64-bit round count does not depend on the
bound. -/
theorem renormCount64_fuel : ∀ (f g v n : Nat), v ≤ f → v ≤ g →
    renormCount64 f v n = renormCount64 g v n := by
  intro f
  induction f with
  | zero =>
    intro g v n hf _
    have hv : v = 0 := by omega
    subst hv
    cases g <;> simp [renormCount64]
  | succ f ih =>
    intro g v n hf hg
    cases g with
    | zero =>
      have hv : v = 0 := by omega
      subst hv
      simp [renormCount64]
    | succ g =>
      simp only [renormCount64]
      split
      · next h =>
        have := renormRound64_lt n h
        rw [ih g _ _ (by omega) (by omega)]
      · rfl

/-- The round count of the 32-bit loop follows the loop: no round if the condition fails,
otherwise one round more than from the state after the round. -/
theorem renormRounds32_unfold (v n : Nat) :
    renormRounds32 v n =
      if 2 ^ 16 ≤ v then
        renormRounds32 (renormRound32 v n).1 (renormRound32 v n).2 + 1
      else 0 := by
  unfold renormRounds32
  cases v with
  | zero => simp [renormCount32]
  | succ u =>
    simp only [renormCount32]
    split
    · next h =>
      have := renormRound32_lt n h
      rw [renormCount32_fuel _ _ _ _ (by omega) (le_refl _)]
    · rfl

/-- The round count of the 64-bit loop follows the loop. -/
theorem renormRounds64_unfold (v n : Nat) :
    renormRounds64 v n =
      if 2 ^ 32 ≤ v then
        renormRounds64 (renormRound64 v n).1 (renormRound64 v n).2 + 1
      else 0 := by
  unfold renormRounds64
  cases v with
  | zero => simp [renormCount64]
  | succ u =>
    simp only [renormCount64]
    split
    · next h =>
      have := renormRound64_lt n h
      rw [renormCount64_fuel _ _ _ _ (by omega) (le_refl _)]
    · rfl

/-- The 32-bit loop runs at most two rounds on a 32-bit value, and is the loop cut off
after two rounds. -/
theorem renorm32_two_rounds (v n : Nat) (hw : v < 2 ^ 32) :
    renormRounds32 v n ≤ 2 ∧ renorm32 v n = renormWhile32 2 v n := by
  rw [renormRounds32_unfold, renorm32_unfold]
  simp only [renormWhile32]
  by_cases h : 2 ^ 16 ≤ v
  · rw [if_pos h, if_pos h, if_pos h]
    have hle := renormRound32_le n h hw
    generalize (renormRound32 v n).1 = v1 at hle
    generalize (renormRound32 v n).2 = n1
    rw [renormRounds32_unfold, renorm32_unfold]
    by_cases h1 : 2 ^ 16 ≤ v1
    · have hv1 : v1 = 2 ^ 16 := by omega
      subst hv1
      have hlt : (renormRound32 (2 ^ 16) n1).1 < 2 ^ 16 := by
        rw [renormRound32_two_pow]
        norm_num
      rw [if_pos h1, if_pos h1, if_pos h1, renormRounds32_unfold,
        if_neg (Nat.not_le.mpr hlt), renorm32_small _ hlt]
      exact ⟨le_refl _, rfl⟩
    · rw [if_neg h1, if_neg h1, if_neg h1]
      exact ⟨by omega, rfl⟩
  · rw [if_neg h, if_neg h, if_neg h]
    exact ⟨by omega, rfl⟩

/-- The 64-bit loop runs at most two rounds on a 64-bit value, and is the loop cut off
after two rounds. -/
theorem renorm64_two_rounds (v n : Nat) (hw : v < 2 ^ 64) :
    renormRounds64 v n ≤ 2 ∧ renorm64 v n = renormWhile64 2 v n := by
  rw [renormRounds64_unfold, renorm64_unfold]
  simp only [renormWhile64]
  by_cases h : 2 ^ 32 ≤ v
  · rw [if_pos h, if_pos h, if_pos h]
    have hle := renormRound64_le n h hw
    generalize (renormRound64 v n).1 = v1 at hle
    generalize (renormRound64 v n).2 = n1
    rw [renormRounds64_unfold, renorm64_unfold]
    by_cases h1 : 2 ^ 32 ≤ v1
    · have hv1 : v1 = 2 ^ 32 := by omega
      subst hv1
      have hlt : (renormRound64 (2 ^ 32) n1).1 < 2 ^ 32 := by
        rw [renormRound64_two_pow]
        norm_num
      rw [if_pos h1, if_pos h1, if_pos h1, renormRounds64_unfold,
        if_neg (Nat.not_le.mpr hlt), renorm64_small _ hlt]
      exact ⟨le_refl _, rfl⟩
    · rw [if_neg h1, if_neg h1, if_neg h1]
      exact ⟨by omega, rfl⟩
  · rw [if_neg h, if_neg h, if_neg h]
    exact ⟨by omega, rfl⟩

/-- The working value after the square is reduced to the width of the accumulator. -/
theorem squareExtract_v_lt (w v n r : Nat) : (squareExtract w v n r).v < 2 ^ w := by
  unfold squareExtract
  simp only []
  split <;> exact Nat.mod_lt _ (Nat.two_pow_pos w)

/-- In `k` iterations of the 32-bit `for` loop from a 32-bit working value the inner loop
runs at most `2 * k` rounds. -/
theorem callRounds32_le : ∀ (k : Nat) (s : LoopState), s.v < 2 ^ 32 →
    callRounds32 k s ≤ 2 * k := by
  intro k
  induction k with
  | zero => intro s _; simp [callRounds32]
  | succ k ih =>
    intro s hs
    have h1 := (renorm32_two_rounds s.v s.nFracBits hs).1
    have h2 := ih (iterBody32 s) (squareExtract_v_lt 32 _ _ _)
    simp only [callRounds32]
    omega

/-- In `k` iterations of the 64-bit `for` loop from a 64-bit working value the inner loop
runs at most `2 * k` rounds. -/
theorem callRounds64_le : ∀ (k : Nat) (s : LoopState), s.v < 2 ^ 64 →
    callRounds64 k s ≤ 2 * k := by
  intro k
  induction k with
  | zero => intro s _; simp [callRounds64]
  | succ k ih =>
    intro s hs
    have h1 := (renorm64_two_rounds s.v s.nFracBits hs).1
    have h2 := ih (iterBody64 s) (squareExtract_v_lt 64 _ _ _)
    simp only [callRounds64]
    omega

/-! ## The loop invariant of `ilog2_32` -/

/-- Under the range condition `nFracBits` is at most 31, and at most 15 once the working
value is below `2 ^ 16`. -/
theorem FracInv.n_le {w n : Nat} (h : FracInv w n) :
    n ≤ 31 ∧ (w < 2 ^ 16 → n ≤ 15) := by
  obtain ⟨ha, -, hc⟩ := h
  constructor
  · have : 2 ^ n < 2 ^ 32 := lt_of_le_of_lt ha (by omega)
    have := (Nat.pow_lt_pow_iff_right (show 1 < 2 by norm_num)).1 this
    omega
  · intro hw
    have := (Nat.pow_lt_pow_iff_right (show 1 < 2 by norm_num)).1 (lt_of_le_of_lt ha hw)
    omega

/-- One round of the 32-bit loop under the range condition: the subtraction
`nFracBits -= rShifts` does not underflow, the addition `v + half` does not wrap, the range
condition holds again, and a lower bound `x * 2 ^ nFracBits ≤ v * 2 ^ e` on the working
value is kept (the round only rounds up). -/
theorem renormRound32_keeps {x e w n : Nat} (h1 : 2 ^ 16 ≤ w) (hinv : FracInv w n)
    (hJ : x * 2 ^ n ≤ w * 2 ^ e) :
    msb16bit (w >>> 16) + 1 ≤ n ∧
    w + halfOf (msb16bit (w >>> 16) + 1) ≤ 2 ^ 32 - 1 ∧
    FracInv (renormRound32 w n).1 (renormRound32 w n).2 ∧
    x * 2 ^ (renormRound32 w n).2 ≤ (renormRound32 w n).1 * 2 ^ e := by
  obtain ⟨ha, hb, hc⟩ := hinv
  have hn31 := (FracInv.n_le ⟨ha, hb, hc⟩).1
  have hw : w < 2 ^ 32 := by omega
  obtain ⟨-, hs, hlo, hhi⟩ := rShifts32_eq h1 hw
  have hle16 := renormRound32_le n h1 hw
  have hL1 : 2 ^ Nat.log 2 w ≤ w := Nat.pow_log_le_self 2 (by omega)
  have hL2 : w < 2 ^ (Nat.log 2 w + 1) := Nat.lt_pow_succ_log_self (by norm_num) w
  have hnL : Nat.log 2 w ≤ n + 1 :=
    (Nat.pow_le_pow_iff_right (show 1 < 2 by norm_num)).1 (le_trans hL1 hb)
  have hsn : Nat.log 2 w - 15 ≤ n := by omega
  have hpos := Nat.two_pow_pos (Nat.log 2 w - 15)
  have hnowrap : w + (2 ^ (Nat.log 2 w - 15) - 1) < 2 ^ 32 := by
    rcases Nat.lt_or_ge (Nat.log 2 w) 31 with h | h
    · have e1 : 2 ^ (Nat.log 2 w + 1) ≤ 2 ^ 31 := Nat.pow_le_pow_right (by norm_num) (by omega)
      have e2 : 2 ^ (Nat.log 2 w - 15) ≤ 2 ^ 15 := Nat.pow_le_pow_right (by norm_num) (by omega)
      omega
    · have e : Nat.log 2 w - 15 = 16 := by omega
      rw [e]
      omega
  rw [hs, halfOf_eq _ (show Nat.log 2 w - 15 ≤ 31 by omega)]
  rw [renormRound32_eq n h1 hw] at hle16 ⊢
  have hdiv : ((w + (2 ^ (Nat.log 2 w - 15) - 1)) % 2 ^ 32) >>> (Nat.log 2 w - 15)
      = (w + (2 ^ (Nat.log 2 w - 15) - 1)) / 2 ^ (Nat.log 2 w - 15) := by
    rw [Nat.mod_eq_of_lt hnowrap, Nat.shiftRight_eq_div_pow]
  have hsub : (n + 2 ^ 64 - (Nat.log 2 w - 15)) % 2 ^ 64 = n - (Nat.log 2 w - 15) := by omega
  simp only [hdiv, hsub] at hle16 ⊢
  have hdm := Nat.div_add_mod (w + (2 ^ (Nat.log 2 w - 15) - 1)) (2 ^ (Nat.log 2 w - 15))
  have hml := Nat.mod_lt (w + (2 ^ (Nat.log 2 w - 15) - 1)) hpos
  generalize (w + (2 ^ (Nat.log 2 w - 15) - 1)) / 2 ^ (Nat.log 2 w - 15) = q at hdm hle16 ⊢
  generalize (w + (2 ^ (Nat.log 2 w - 15) - 1)) % 2 ^ (Nat.log 2 w - 15) = r at hdm hml
  rw [Nat.mul_comm] at hdm
  -- the quotient `q` is `w / 2 ^ s` rounded up
  have hup : w ≤ q * 2 ^ (Nat.log 2 w - 15) := by omega
  have hq : 0 < q := by
    rcases Nat.eq_zero_or_pos q with h0 | h0
    · rw [h0] at hup
      omega
    · exact h0
  have hdown : (q - 1) * 2 ^ (Nat.log 2 w - 15) < w := by
    obtain ⟨q', rfl⟩ : ∃ q', q = q' + 1 := ⟨q - 1, by omega⟩
    rw [Nat.add_mul] at hdm
    simp only [Nat.add_sub_cancel]
    omega
  have hsplit : 2 ^ n = 2 ^ (n - (Nat.log 2 w - 15)) * 2 ^ (Nat.log 2 w - 15) := by
    rw [← Nat.pow_add, Nat.sub_add_cancel hsn]
  have hsplit1 : 2 ^ (n + 1) =
      2 ^ (n - (Nat.log 2 w - 15) + 1) * 2 ^ (Nat.log 2 w - 15) := by
    rw [← Nat.pow_add]
    congr 1
    omega
  refine ⟨hsn, by omega, ⟨?_, ?_, by omega⟩, ?_⟩
  · apply Nat.le_of_mul_le_mul_right _ hpos
    rw [← hsplit]
    exact le_trans ha hup
  · have : (q - 1) * 2 ^ (Nat.log 2 w - 15) <
        2 ^ (n - (Nat.log 2 w - 15) + 1) * 2 ^ (Nat.log 2 w - 15) := by
      rw [← hsplit1]
      exact lt_of_lt_of_le hdown hb
    have := Nat.lt_of_mul_lt_mul_right this
    omega
  · apply Nat.le_of_mul_le_mul_right _ hpos
    calc x * 2 ^ (n - (Nat.log 2 w - 15)) * 2 ^ (Nat.log 2 w - 15)
        = x * 2 ^ n := by rw [Nat.mul_assoc, ← hsplit]
      _ ≤ w * 2 ^ e := hJ
      _ ≤ q * 2 ^ (Nat.log 2 w - 15) * 2 ^ e := Nat.mul_le_mul_right _ hup
      _ = q * 2 ^ e * 2 ^ (Nat.log 2 w - 15) := by ring

/-- The rule of the 32-bit inner loop: a property kept by every round that runs holds when
the loop ends. -/
theorem renorm32_induct (Q : Nat → Nat → Prop)
    (hstep : ∀ w n, 2 ^ 16 ≤ w → Q w n → Q (renormRound32 w n).1 (renormRound32 w n).2) :
    ∀ w n, Q w n → Q (renorm32 w n).1 (renorm32 w n).2 := by
  intro w
  induction w using Nat.strong_induction_on with
  | _ w ih =>
    intro n hQ
    rw [renorm32_unfold]
    split
    · next h => exact ih _ (renormRound32_lt n h) _ (hstep w n h hQ)
    · exact hQ

/-- The same rule for the loop cut off after `j` rounds: the property holds after each
number of rounds. -/
theorem renormWhile32_induct (Q : Nat → Nat → Prop)
    (hstep : ∀ w n, 2 ^ 16 ≤ w → Q w n → Q (renormRound32 w n).1 (renormRound32 w n).2) :
    ∀ j w n, Q w n → Q (renormWhile32 j w n).1 (renormWhile32 j w n).2 := by
  intro j
  induction j with
  | zero => intro w n hQ; exact hQ
  | succ j ih =>
    intro w n hQ
    simp only [renormWhile32]
    split
    · next h => exact ih _ _ (hstep w n h hQ)
    · exact hQ

/-- The 32-bit inner loop keeps the range condition and the lower bound, and ends below
`2 ^ 16`. -/
theorem renorm32_keeps {x e w n : Nat} (hinv : FracInv w n) (hJ : x * 2 ^ n ≤ w * 2 ^ e) :
    FracInv (renorm32 w n).1 (renorm32 w n).2 ∧
    x * 2 ^ (renorm32 w n).2 ≤ (renorm32 w n).1 * 2 ^ e ∧
    (renorm32 w n).1 < 2 ^ 16 := by
  have := renorm32_induct (fun w n => FracInv w n ∧ x * 2 ^ n ≤ w * 2 ^ e)
    (fun w n h hQ => (renormRound32_keeps h hQ.1 hQ.2).2.2) w n ⟨hinv, hJ⟩
  exact ⟨this.1, this.2, renorm32_exit w n⟩

/-- The loop entry state of `ilog2_32` on a nonzero 32-bit word, simplified. -/
theorem loopStart32_eq {v : Nat} (hv : 0 < v) (hw : v < 2 ^ 32) :
    loopStart32 v =
      { v := v >>> bitScanForwardCore v
        nFracBits := Nat.log 2 v - bitScanForwardCore v
        resultBits := 0 } := by
  have hle := bitScanForwardCore_le_log hv (lt_trans hw (by norm_num))
  obtain ⟨hlog, -, -⟩ := log2_bounds hv hw
  have hn : (Nat.log 2 v + 2 ^ 64 - bitScanForwardCore v) % 2 ^ 64
      = Nat.log 2 v - bitScanForwardCore v := by omega
  unfold loopStart32
  rw [msb32bit_eq_log hv hw, hn]

/-- A nonzero word whose top bit is its lowest set bit is a power of two. -/
theorem eq_two_pow_of_log_eq_core {v : Nat} (hv : 0 < v) (hw : v < 2 ^ 64)
    (hfast : Nat.log 2 v = bitScanForwardCore v) : v = 2 ^ Nat.log 2 v := by
  obtain ⟨-, -, hlow⟩ := bitScanForwardCore_spec hv hw
  have hmul := shiftRight_mul_two_pow hlow
  have h2 : v < 2 ^ (Nat.log 2 v + 1) := Nat.lt_pow_succ_log_self (by norm_num) v
  have hwlt : v >>> bitScanForwardCore v < 2 := by
    by_contra hge
    have : 2 * 2 ^ bitScanForwardCore v ≤ (v >>> bitScanForwardCore v) *
        2 ^ bitScanForwardCore v := Nat.mul_le_mul_right _ (Nat.le_of_not_lt hge)
    rw [hmul, ← hfast] at this
    rw [Nat.pow_succ] at h2
    omega
  have hwpos : 0 < v >>> bitScanForwardCore v := by
    rcases Nat.eq_zero_or_pos (v >>> bitScanForwardCore v) with h0 | h0
    · rw [h0, Nat.zero_mul] at hmul
      omega
    · exact h0
  have hone : v >>> bitScanForwardCore v = 1 := by omega
  rw [hone, Nat.one_mul, ← hfast] at hmul
  exact hmul.symm

/-- One iteration of the 32-bit body under the range condition: the square does not wrap,
the extraction shift amount is at most 31, the range condition holds again, exactly one bit
`b` is appended to `resultBits`, and a lower bound on the working value is squared with it. -/
theorem iterBody32_keeps {x e : Nat} {s : LoopState} (hinv : FracInv s.v s.nFracBits)
    (hJ : x * 2 ^ s.nFracBits ≤ s.v * 2 ^ e) (hr : s.resultBits < 2 ^ 31) :
    (renorm32 s.v s.nFracBits).1 * (renorm32 s.v s.nFracBits).1 ≤ 2 ^ 32 - 1 ∧
    2 * (renorm32 s.v s.nFracBits).2 + 1 ≤ 31 ∧
    FracInv (iterBody32 s).v (iterBody32 s).nFracBits ∧
    ∃ b, b ≤ 1 ∧ (iterBody32 s).resultBits = 2 * s.resultBits + b ∧
      x * x * 2 ^ (iterBody32 s).nFracBits ≤ (iterBody32 s).v * 2 ^ (2 * e + b) := by
  obtain ⟨hi1, hJ1, hlt⟩ := renorm32_keeps hinv hJ
  have hn15 := (FracInv.n_le hi1).2 hlt
  unfold iterBody32
  generalize (renorm32 s.v s.nFracBits).1 = w at hi1 hJ1 hlt hn15 ⊢
  generalize (renorm32 s.v s.nFracBits).2 = n at hi1 hJ1 hn15 ⊢
  obtain ⟨ha, hb, -⟩ := hi1
  have hsq : w * w ≤ 65535 * 65535 := Nat.mul_le_mul (by omega) (by omega)
  have hsq32 : w * w < 2 ^ 32 := by omega
  have hlow : 2 ^ (2 * n) ≤ w * w := by
    have : 2 ^ (2 * n) = 2 ^ n * 2 ^ n := by ring
    rw [this]
    exact Nat.mul_le_mul ha ha
  have hhigh : w * w ≤ 2 ^ (2 * n + 1 + 1) := by
    have : 2 ^ (2 * n + 1 + 1) = 2 ^ (n + 1) * 2 ^ (n + 1) := by ring
    rw [this]
    exact Nat.mul_le_mul hb hb
  have hJsq : x * 2 ^ n * (x * 2 ^ n) ≤ w * 2 ^ e * (w * 2 ^ e) := Nat.mul_le_mul hJ1 hJ1
  rw [squareExtract_exact hsq32 (by omega) hr]
  refine ⟨by omega, by omega, ?_⟩
  by_cases hc : 2 ^ (2 * n + 1) ≤ w * w
  · rw [if_pos hc]
    refine ⟨⟨hc, hhigh, show w * w ≤ 0xFFFF0000 by omega⟩, 1, le_refl 1, rfl, ?_⟩
    show x * x * 2 ^ (2 * n + 1) ≤ w * w * 2 ^ (2 * e + 1)
    calc x * x * 2 ^ (2 * n + 1) = x * 2 ^ n * (x * 2 ^ n) * 2 := by ring
      _ ≤ w * 2 ^ e * (w * 2 ^ e) * 2 := Nat.mul_le_mul_right _ hJsq
      _ = w * w * 2 ^ (2 * e + 1) := by ring
  · rw [if_neg hc]
    refine ⟨⟨hlow, show w * w ≤ 2 ^ (2 * n + 1) by omega,
      show w * w ≤ 0xFFFF0000 by omega⟩, 0, by omega, rfl, ?_⟩
    show x * x * 2 ^ (2 * n) ≤ w * w * 2 ^ (2 * e + 0)
    calc x * x * 2 ^ (2 * n) = x * 2 ^ n * (x * 2 ^ n) := by ring
      _ ≤ w * 2 ^ e * (w * 2 ^ e) := hJsq
      _ = w * w * 2 ^ (2 * e + 0) := by ring

/-- The invariant of the `for` loop of `ilog2_32` on a nonzero `v ≤ 0xFFFF0000`: after `i`
iterations the range condition holds, `resultBits` has `i` bits, and the working value,
scaled, is at least the exact power `v ^ (2 ^ i)`. -/
theorem iterate32_inv {v : Nat} (hv : 0 < v) (hv2 : v ≤ 0xFFFF0000) : ∀ i, i ≤ 31 →
    FracInv (iterBody32^[i] (loopStart32 v)).v (iterBody32^[i] (loopStart32 v)).nFracBits ∧
    (iterBody32^[i] (loopStart32 v)).resultBits < 2 ^ i ∧
    v ^ 2 ^ i * 2 ^ (iterBody32^[i] (loopStart32 v)).nFracBits ≤
      (iterBody32^[i] (loopStart32 v)).v *
        2 ^ (Nat.log 2 v * 2 ^ i + (iterBody32^[i] (loopStart32 v)).resultBits) := by
  have hw : v < 2 ^ 32 := by omega
  have hw64 : v < 2 ^ 64 := by omega
  intro i
  induction i with
  | zero =>
    intro _
    obtain ⟨-, -, hlow⟩ := bitScanForwardCore_spec hv hw64
    have hle := bitScanForwardCore_le_log hv hw64
    have hmul := shiftRight_mul_two_pow hlow
    obtain ⟨-, h1, h2⟩ := log2_bounds hv hw
    have hpos := Nat.two_pow_pos (bitScanForwardCore v)
    have hsplit : 2 ^ Nat.log 2 v =
        2 ^ (Nat.log 2 v - bitScanForwardCore v) * 2 ^ bitScanForwardCore v := by
      rw [← Nat.pow_add, Nat.sub_add_cancel hle]
    have hsplit1 : 2 ^ (Nat.log 2 v + 1) =
        2 ^ (Nat.log 2 v - bitScanForwardCore v + 1) * 2 ^ bitScanForwardCore v := by
      rw [← Nat.pow_add]
      congr 1
      omega
    rw [Function.iterate_zero, id, loopStart32_eq hv hw]
    refine ⟨⟨?_, ?_, ?_⟩, by norm_num, ?_⟩
    · apply Nat.le_of_mul_le_mul_right _ hpos
      rw [← hsplit, hmul]
      exact h1
    · apply Nat.le_of_lt
      apply Nat.lt_of_mul_lt_mul_right (a := 2 ^ bitScanForwardCore v)
      rw [← hsplit1, hmul]
      exact h2
    · show v >>> bitScanForwardCore v ≤ 0xFFFF0000
      rw [Nat.shiftRight_eq_div_pow]
      exact le_trans (Nat.div_le_self _ _) hv2
    · show v ^ 2 ^ 0 * 2 ^ (Nat.log 2 v - bitScanForwardCore v) ≤
        v >>> bitScanForwardCore v * 2 ^ (Nat.log 2 v * 2 ^ 0 + 0)
      rw [Nat.pow_zero, Nat.pow_one, Nat.mul_one, Nat.add_zero]
      apply Nat.le_of_eq
      calc v * 2 ^ (Nat.log 2 v - bitScanForwardCore v)
          = v >>> bitScanForwardCore v * 2 ^ bitScanForwardCore v *
              2 ^ (Nat.log 2 v - bitScanForwardCore v) := by rw [hmul]
        _ = v >>> bitScanForwardCore v *
              (2 ^ (Nat.log 2 v - bitScanForwardCore v) * 2 ^ bitScanForwardCore v) := by ring
        _ = v >>> bitScanForwardCore v * 2 ^ Nat.log 2 v := by rw [← hsplit]
  | succ i ih =>
    intro hi
    obtain ⟨hinv, hr, hJ⟩ := ih (by omega)
    have hr31 : (iterBody32^[i] (loopStart32 v)).resultBits < 2 ^ 31 :=
      lt_of_lt_of_le hr (Nat.pow_le_pow_right (by norm_num) (by omega))
    obtain ⟨-, -, hinv', b, hb, hres, hJ'⟩ := iterBody32_keeps hinv hJ hr31
    rw [Function.iterate_succ_apply']
    refine ⟨hinv', ?_, ?_⟩
    · rw [hres, Nat.pow_succ]
      omega
    · have hx : v ^ 2 ^ (i + 1) = v ^ 2 ^ i * v ^ 2 ^ i := by
        rw [Nat.pow_succ, Nat.pow_mul]
        ring
      have he : Nat.log 2 v * 2 ^ (i + 1) +
          (iterBody32 (iterBody32^[i] (loopStart32 v))).resultBits =
          2 * (Nat.log 2 v * 2 ^ i + (iterBody32^[i] (loopStart32 v)).resultBits) + b := by
        rw [hres, Nat.pow_succ]
        ring
      rw [hx, he]
      exact hJ'

/-- A nonzero 32-bit word that does not take the fast path is not a power of two. -/
theorem not_two_pow_of_slow {v : Nat} (hw : v < 2 ^ 32)
    (hslow : Nat.log 2 v ≠ bitScanForwardCore v) (m : Nat) : v ≠ 2 ^ m := by
  intro h
  have hm : m < 32 := by
    rw [h] at hw
    exact (Nat.pow_lt_pow_iff_right (show 1 < 2 by norm_num)).1 hw
  have hlog : Nat.log 2 v = m := by
    rw [h]
    exact Nat.log_pow (by norm_num) m
  obtain ⟨h1, -⟩ := bitScan_two_pow m (by omega)
  obtain ⟨h2, -, -⟩ := bitScanForwardCore_spec (Nat.two_pow_pos m)
    (lt_trans (h ▸ hw) (by norm_num))
  rw [h1] at h2
  have hcore : m = bitScanForwardCore (2 ^ m) := by injection h2
  rw [h] at hslow
  rw [h] at hlog
  omega

/-! ## The error bound on `[1.0, 2.0)` with 8 fractional input bits -/

set_option exponentiation.threshold 1000000 in
set_option maxRecDepth 1000000 in
/-- The integer check holds on each of the 256 inputs `256 ≤ v < 512`. -/
theorem errCheck_all : ∀ v, v < 512 → 256 ≤ v → errCheck v = true := by
  decide

/-- The integer check in terms of the returned fraction, for any previous content of the
`intPart` slot. -/
theorem errCheck_spec {v : Nat} (p : Nat) (h1 : 256 ≤ v) (h2 : v < 512) :
    ∃ frac, ilog2_32 v 16 p = .ok (frac, 8) ∧
      2 ^ (8 * 2 ^ 16 + frac - 2) ≤ v ^ 2 ^ 16 ∧ v ^ 2 ^ 16 < 2 ^ (8 * 2 ^ 16 + frac + 1) := by
  have hv : 0 < v := by omega
  have hw : v < 2 ^ 32 := by omega
  have hc := errCheck_all v h2 h1
  have hlog : Nat.log 2 v = 8 := Nat.log_eq_of_pow_le_of_lt_pow (by omega) (by omega)
  have e0 := ilog2_32_eq 0 hv hw (show 16 ≤ 28 by norm_num)
  have ep := ilog2_32_eq p hv hw (show 16 ≤ 28 by norm_num)
  rw [hlog] at e0 ep
  unfold errCheck at hc
  rw [e0] at hc
  simp only [beq_self_eq_true, Bool.true_and, Bool.and_eq_true, decide_eq_true_eq] at hc
  exact ⟨_, ep, hc.1, hc.2⟩

/-! ## The claims -/

/-- C1: for every nonzero 32-bit `v` and every `F ≤ 28`, `ilog2_32(v, F)` returns and writes
an `intPart` with `2 ^ intPart ≤ v < 2 ^ (intPart + 1)`, that is `intPart = ⌊log2 v⌋`;
likewise `ilog2_64(v, F)` for every nonzero 64-bit `v` and every `F ≤ 30`. -/
theorem ilog2_intPart_floor_log2 (v F p : Nat) (hv : 0 < v) :
    (v < 2 ^ 32 → F ≤ 28 →
      ∃ frac intPart, ilog2_32 v F p = .ok (frac, intPart) ∧ intPart = Nat.log 2 v ∧
        2 ^ intPart ≤ v ∧ v < 2 ^ (intPart + 1)) ∧
    (v < 2 ^ 64 → F ≤ 30 →
      ∃ frac intPart, ilog2_64 v F p = .ok (frac, intPart) ∧ intPart = Nat.log 2 v ∧
        2 ^ intPart ≤ v ∧ v < 2 ^ (intPart + 1)) := by
  constructor
  · intro hw hF
    obtain ⟨frac, h, -⟩ := ilog2_32_ok p hv hw hF
    obtain ⟨-, h1, h2⟩ := log2_bounds hv hw
    exact ⟨frac, _, h, rfl, h1, h2⟩
  · intro hw hF
    obtain ⟨frac, h, -⟩ := ilog2_64_ok p hv hw hF
    obtain ⟨-, h1, h2⟩ := log2_bounds hv hw
    exact ⟨frac, _, h, rfl, h1, h2⟩

/-- Witness of C1 at `v = 10`, `F = 4` (both routines) with the slot holding 0 before. -/
theorem ilog2_intPart_floor_log2_witness :
    (∃ frac intPart, ilog2_32 10 4 0 = .ok (frac, intPart) ∧ intPart = Nat.log 2 10 ∧
        2 ^ intPart ≤ 10 ∧ 10 < 2 ^ (intPart + 1)) ∧
    (∃ frac intPart, ilog2_64 10 4 0 = .ok (frac, intPart) ∧ intPart = Nat.log 2 10 ∧
        2 ^ intPart ≤ 10 ∧ 10 < 2 ^ (intPart + 1)) :=
  ⟨(ilog2_intPart_floor_log2 10 4 0 (by decide)).1 (by decide) (by decide),
   (ilog2_intPart_floor_log2 10 4 0 (by decide)).2 (by decide) (by decide)⟩

/-- C2: for every nonzero 64-bit `v`, `bitScanForward(v)` returns an index `i` in `0..63`
with `(v >> i) & 1 == 1` and `(v >> k) & 1 == 0` for every `k < i`: the index of the least
significant set bit. -/
theorem bitScanForward_least_set_bit (v : Nat) (hv : 0 < v) (hw : v < 2 ^ 64) :
    ∃ i, bitScanForward v = .ok i ∧ i ≤ 63 ∧ (v >>> i) &&& 1 = 1 ∧
      ∀ k, k < i → (v >>> k) &&& 1 = 0 := by
  obtain ⟨i, h, hi, hb, hlow⟩ := bitScanForward_spec hv hw
  refine ⟨i, h, by omega, ?_, ?_⟩
  · rw [shiftRight_and_one, hb]
    rfl
  · intro k hk
    rw [shiftRight_and_one, hlow k hk]
    rfl

/-- Witness of C2 at `v = 40`. -/
theorem bitScanForward_least_set_bit_witness :
    ∃ i, bitScanForward 40 = .ok i ∧ i ≤ 63 ∧ (40 >>> i) &&& 1 = 1 ∧
      ∀ k, k < i → (40 >>> k) &&& 1 = 0 :=
  bitScanForward_least_set_bit 40 (by decide) (by decide)

/-- C3: for every nonzero 64-bit `v`, `bitScanReverse(v)` returns an index `i` in `0..63`
with `(v >> i) & 1 == 1` and `(v >> k) & 1 == 0` for every `k > i`: the index of the most
significant set bit. -/
theorem bitScanReverse_most_set_bit (v : Nat) (hv : 0 < v) (hw : v < 2 ^ 64) :
    ∃ i, bitScanReverse v = .ok i ∧ i ≤ 63 ∧ (v >>> i) &&& 1 = 1 ∧
      ∀ k, i < k → (v >>> k) &&& 1 = 0 := by
  obtain ⟨hk, h1, h2⟩ := log2_bounds hv hw
  refine ⟨Nat.log 2 v, bitScanReverse_eq_log hv hw, by omega, ?_, ?_⟩
  · rw [shiftRight_and_one, testBit_top h1 h2]
    rfl
  · intro k hik
    have hle : 2 ^ (Nat.log 2 v + 1) ≤ 2 ^ k := Nat.pow_le_pow_right (by norm_num) hik
    rw [shiftRight_and_one, Nat.testBit_lt_two_pow (lt_of_lt_of_le h2 hle)]
    rfl

/-- Witness of C3 at `v = 40`. -/
theorem bitScanReverse_most_set_bit_witness :
    ∃ i, bitScanReverse 40 = .ok i ∧ i ≤ 63 ∧ (40 >>> i) &&& 1 = 1 ∧
      ∀ k, i < k → (40 >>> k) &&& 1 = 0 :=
  bitScanReverse_most_set_bit 40 (by decide) (by decide)

/-- C4: exact powers of two take the fast path.  For `k ≤ 63` both bit scans of `2 ^ k`
return `k`, and `ilog2_64(2 ^ k, F)` returns fraction 0 with `intPart = k` for every
`F ≤ 30`; for `k ≤ 31`, `ilog2_32(2 ^ k, F)` returns fraction 0 with `intPart = k` for every
`F ≤ 28`. -/
theorem ilog2_two_pow (k F p : Nat) :
    (k ≤ 63 → bitScanForward (2 ^ k) = .ok k ∧ bitScanReverse (2 ^ k) = .ok k) ∧
    (k ≤ 63 → F ≤ 30 → ilog2_64 (2 ^ k) F p = .ok (0, k)) ∧
    (k ≤ 31 → F ≤ 28 → ilog2_32 (2 ^ k) F p = .ok (0, k)) := by
  have hne : (2 : Nat) ^ k ≠ 0 := (Nat.two_pow_pos k).ne'
  refine ⟨fun hk => bitScan_two_pow k (by omega), ?_, ?_⟩
  · intro hk hF
    obtain ⟨h1, h2⟩ := bitScan_two_pow k (by omega)
    simp [ilog2_64, hF, h1, h2]
  · intro hk hF
    obtain ⟨h1, -⟩ := bitScan_two_pow k (by omega)
    simp [ilog2_32, hF, h1, msb32bit_two_pow k (by omega)]

/-- Witness of C4: `ilog2_32(256, 0)` returns 0 with `intPart = 8`, and the 64-bit routine
and the bit scans at `2 ^ 40`. -/
theorem ilog2_two_pow_witness :
    ilog2_32 256 0 7 = .ok (0, 8) ∧ ilog2_64 (2 ^ 40) 30 7 = .ok (0, 40) ∧
      (bitScanForward (2 ^ 40) = .ok 40 ∧ bitScanReverse (2 ^ 40) = .ok 40) :=
  ⟨(ilog2_two_pow 8 0 7).2.2 (by decide) (by decide),
   (ilog2_two_pow 40 30 7).2.1 (by decide) (by decide),
   (ilog2_two_pow 40 30 7).1 (by decide)⟩

/-- C5 (evaluation at the failing input): with `F = 1`, `a = 0xC0000000` and
`b = 0xFFFFFFFF`, `ilog2_32` gives `(frac, intPart) = (1, 31)` for `a` and `(0, 31)` for
`b`, so the combined value of `a` exceeds that of `b` although `a < b`: in the first
renormalisation round `b + 0xFFFF` wraps in `uint32_t`.  The 64-bit routine returns
fraction 1 on the same `b`. -/
theorem ilog2_32_not_monotone :
    0xC0000000 < 0xFFFFFFFF ∧
    ilog2_32 0xC0000000 1 0 = .ok (1, 31) ∧ ilog2_32 0xFFFFFFFF 1 0 = .ok (0, 31) ∧
    ¬ (31 * 2 ^ 1 + 1 ≤ 31 * 2 ^ 1 + 0) ∧
    renormRound32 0xFFFFFFFF 31 = (0, 15) ∧
    ilog2_64 0xFFFFFFFF 1 0 = .ok (1, 31) := by
  decide

/-- C6: the returned fraction is an `F`-bit value.  For every nonzero 32-bit `v` and
`F ≤ 28`, `ilog2_32(v, F) < 2 ^ F`; for every nonzero 64-bit `v` and `F ≤ 30`,
`ilog2_64(v, F) < 2 ^ F`; so OR-ing it under `intPart << F` is the same as adding it. -/
theorem ilog2_frac_lt (v F p : Nat) (hv : 0 < v) :
    (v < 2 ^ 32 → F ≤ 28 →
      ∃ frac intPart, ilog2_32 v F p = .ok (frac, intPart) ∧ frac < 2 ^ F ∧
        (intPart <<< F) ||| frac = intPart * 2 ^ F + frac) ∧
    (v < 2 ^ 64 → F ≤ 30 →
      ∃ frac intPart, ilog2_64 v F p = .ok (frac, intPart) ∧ frac < 2 ^ F ∧
        (intPart <<< F) ||| frac = intPart * 2 ^ F + frac) := by
  have hor : ∀ frac intPart : Nat, frac < 2 ^ F →
      (intPart <<< F) ||| frac = intPart * 2 ^ F + frac := by
    intro frac intPart h
    rw [Nat.shiftLeft_eq, Nat.mul_comm, ← Nat.mul_add_lt_is_or h]
  constructor
  · intro hw hF
    obtain ⟨frac, h, hlt⟩ := ilog2_32_ok p hv hw hF
    exact ⟨frac, _, h, hlt, hor _ _ hlt⟩
  · intro hw hF
    obtain ⟨frac, h, hlt⟩ := ilog2_64_ok p hv hw hF
    exact ⟨frac, _, h, hlt, hor _ _ hlt⟩

/-- Witness of C6 at `v = 0x12345`, `F = 16`. -/
theorem ilog2_frac_lt_witness :
    (∃ frac intPart, ilog2_32 0x12345 16 0 = .ok (frac, intPart) ∧ frac < 2 ^ 16 ∧
        (intPart <<< 16) ||| frac = intPart * 2 ^ 16 + frac) ∧
    (∃ frac intPart, ilog2_64 0x12345 16 0 = .ok (frac, intPart) ∧ frac < 2 ^ 16 ∧
        (intPart <<< 16) ||| frac = intPart * 2 ^ 16 + frac) :=
  ⟨(ilog2_frac_lt 0x12345 16 0 (by decide)).1 (by decide) (by decide),
   (ilog2_frac_lt 0x12345 16 0 (by decide)).2 (by decide) (by decide)⟩

/-- C7: the zero-input sentinel.  For every 32-bit `v` and `F ≤ 28`, `ilog2_32(v, F)`
returns `0xFFFFFFFF` if and only if `v = 0`, and for `v = 0` the `intPart` slot keeps the
value it had before the call; the same for `ilog2_64` with 64-bit `v` and `F ≤ 30`. -/
theorem ilog2_zero_sentinel (v F p : Nat) :
    (v < 2 ^ 32 → F ≤ 28 →
      ((∃ intPart, ilog2_32 v F p = .ok (0xFFFFFFFF, intPart)) ↔ v = 0) ∧
        ilog2_32 0 F p = .ok (0xFFFFFFFF, p)) ∧
    (v < 2 ^ 64 → F ≤ 30 →
      ((∃ intPart, ilog2_64 v F p = .ok (0xFFFFFFFF, intPart)) ↔ v = 0) ∧
        ilog2_64 0 F p = .ok (0xFFFFFFFF, p)) := by
  constructor
  · intro hw hF
    have h0 : ilog2_32 0 F p = .ok (0xFFFFFFFF, p) := by simp [ilog2_32, hF]
    refine ⟨⟨?_, ?_⟩, h0⟩
    · rintro ⟨intPart, h⟩
      by_contra hne
      obtain ⟨frac, h', hlt⟩ := ilog2_32_ok p (Nat.pos_of_ne_zero hne) hw hF
      rw [h'] at h
      have hfrac : frac = 0xFFFFFFFF := by injection h with h; exact congrArg Prod.fst h
      have : 2 ^ F ≤ 2 ^ 28 := Nat.pow_le_pow_right (by norm_num) hF
      omega
    · rintro rfl
      exact ⟨p, h0⟩
  · intro hw hF
    have h0 : ilog2_64 0 F p = .ok (0xFFFFFFFF, p) := by simp [ilog2_64, hF]
    refine ⟨⟨?_, ?_⟩, h0⟩
    · rintro ⟨intPart, h⟩
      by_contra hne
      obtain ⟨frac, h', hlt⟩ := ilog2_64_ok p (Nat.pos_of_ne_zero hne) hw hF
      rw [h'] at h
      have hfrac : frac = 0xFFFFFFFF := by injection h with h; exact congrArg Prod.fst h
      have : 2 ^ F ≤ 2 ^ 30 := Nat.pow_le_pow_right (by norm_num) hF
      omega
    · rintro rfl
      exact ⟨p, h0⟩

/-- Witness of C7: `ilog2_32(0, 16)` returns `0xFFFFFFFF` and leaves the slot at 7; the
same for `ilog2_64`. -/
theorem ilog2_zero_sentinel_witness :
    (((∃ intPart, ilog2_32 0 16 7 = .ok (0xFFFFFFFF, intPart)) ↔ 0 = 0) ∧
        ilog2_32 0 16 7 = .ok (0xFFFFFFFF, 7)) ∧
    (((∃ intPart, ilog2_64 0 16 7 = .ok (0xFFFFFFFF, intPart)) ↔ 0 = 0) ∧
        ilog2_64 0 16 7 = .ok (0xFFFFFFFF, 7)) :=
  ⟨(ilog2_zero_sentinel 0 16 7).1 (by decide) (by decide),
   (ilog2_zero_sentinel 0 16 7).2 (by decide) (by decide)⟩

/-- C8: the iteration-count bound.  For every 64-bit `v` (zero included), `ilog2_64(v, F)`
ends in an assertion failure if and only if `F > 30`; for every 32-bit `v`,
`ilog2_32(v, F)` does if and only if `F > 28`.  The failure is never the assertion
`bb != 0` of a bit scan. -/
theorem ilog2_assert_iff (v F p : Nat) :
    (v < 2 ^ 64 →
      ((∃ e, ilog2_64 v F p = .error e) ↔ 30 < F) ∧
        ilog2_64 v F p ≠ .error .bbNonzero) ∧
    (v < 2 ^ 32 →
      ((∃ e, ilog2_32 v F p = .error e) ↔ 28 < F) ∧
        ilog2_32 v F p ≠ .error .bbNonzero) := by
  constructor
  · intro hw
    by_cases hF : F ≤ 30
    · have hok : ∃ r, ilog2_64 v F p = .ok r := by
        by_cases hv : v = 0
        · exact ⟨(0xFFFFFFFF, p), by simp [ilog2_64, hF, hv]⟩
        · obtain ⟨frac, h, -⟩ := ilog2_64_ok p (Nat.pos_of_ne_zero hv) hw hF
          exact ⟨_, h⟩
      obtain ⟨r, hr⟩ := hok
      rw [hr]
      simp
      omega
    · have herr : ilog2_64 v F p = .error .iteCntBound := by simp [ilog2_64, hF]
      rw [herr]
      simp
      omega
  · intro hw
    by_cases hF : F ≤ 28
    · have hok : ∃ r, ilog2_32 v F p = .ok r := by
        by_cases hv : v = 0
        · exact ⟨(0xFFFFFFFF, p), by simp [ilog2_32, hF, hv]⟩
        · obtain ⟨frac, h, -⟩ := ilog2_32_ok p (Nat.pos_of_ne_zero hv) hw hF
          exact ⟨_, h⟩
      obtain ⟨r, hr⟩ := hok
      rw [hr]
      simp
      omega
    · have herr : ilog2_32 v F p = .error .iteCntBound := by simp [ilog2_32, hF]
      rw [herr]
      simp
      omega

/-- Witness of C8: `ilog2_64(5, 31)` fails, and `ilog2_32(5, 29)` fails. -/
theorem ilog2_assert_iff_witness :
    (((∃ e, ilog2_64 5 31 0 = .error e) ↔ 30 < 31) ∧
        ilog2_64 5 31 0 ≠ .error .bbNonzero) ∧
    (((∃ e, ilog2_32 5 29 0 = .error e) ↔ 28 < 29) ∧
        ilog2_32 5 29 0 ≠ .error .bbNonzero) :=
  ⟨(ilog2_assert_iff 5 31 0).1 (by decide), (ilog2_assert_iff 5 29 0).2 (by decide)⟩

/-- C9: on its meaningful range each `msb` helper returns the floor of the binary logarithm:
`msb8bit` for `1 ≤ v ≤ 255`, `msb16bit` for `1 ≤ v ≤ 65535`, `msb32bit` for nonzero 32-bit
`v`; hence the helpers agree wherever their ranges overlap. -/
theorem msb_family_floor_log2 (v : Nat) (hv : 1 ≤ v) :
    (v ≤ 255 → msb8bit v = Nat.log 2 v) ∧
    (v ≤ 65535 → msb16bit v = Nat.log 2 v) ∧
    (v < 2 ^ 32 → msb32bit v = Nat.log 2 v) ∧
    (v ≤ 255 → msb8bit v = msb16bit v ∧ msb8bit v = msb32bit v) ∧
    (v ≤ 65535 → msb16bit v = msb32bit v) := by
  refine ⟨?_, ?_, ?_, ?_, ?_⟩
  · intro h
    exact msb8bit_eq_log hv (by omega)
  · intro h
    exact msb16bit_eq_log hv (by omega)
  · intro h
    exact msb32bit_eq_log hv h
  · intro h
    rw [msb8bit_eq_log hv (by omega), msb16bit_eq_log hv (by omega),
      msb32bit_eq_log hv (by omega)]
    exact ⟨rfl, rfl⟩
  · intro h
    rw [msb16bit_eq_log hv (by omega), msb32bit_eq_log hv (by omega)]

/-- Witness of C9 at `v = 200`. -/
theorem msb_family_floor_log2_witness :
    (msb8bit 200 = Nat.log 2 200) ∧ (msb16bit 200 = Nat.log 2 200) ∧
    (msb32bit 200 = Nat.log 2 200) ∧
    (msb8bit 200 = msb16bit 200 ∧ msb8bit 200 = msb32bit 200) ∧
    (msb16bit 200 = msb32bit 200) :=
  ⟨(msb_family_floor_log2 200 (by decide)).1 (by decide),
   (msb_family_floor_log2 200 (by decide)).2.1 (by decide),
   (msb_family_floor_log2 200 (by decide)).2.2.1 (by decide),
   (msb_family_floor_log2 200 (by decide)).2.2.2.1 (by decide),
   (msb_family_floor_log2 200 (by decide)).2.2.2.2 (by decide)⟩

/-- C10 fails as stated: the 16-bit word 256 is sent by `msb8bit` to 30, outside `0..15`. -/
theorem msb8bit_range_counterexample :
    256 < 2 ^ 16 ∧ msb8bit 256 = 30 ∧ ¬ (msb8bit 256 ≤ 15) := by
  decide

/-- C10, amended: for every 16-bit word `v`, `msb8bit(v)` is an entry of the 32-entry table,
a bit index in `0..31`; for the words whose value is below 256 it is in `0..7`. -/
theorem msb8bit_range (v : Nat) (hw : v < 2 ^ 16) :
    msb8bit v ≤ 31 ∧ (v < 256 → msb8bit v ≤ 7) := by
  refine ⟨msb8bit_le v, ?_⟩
  intro h
  rcases Nat.eq_zero_or_pos v with h0 | hpos
  · subst h0
    decide
  · obtain ⟨hk, -, -⟩ := log2_bounds hpos (show v < 2 ^ 8 by omega)
    rw [msb8bit_eq_log hpos (by omega)]
    omega

/-- Witness of the amended C10 at `v = 200` (both parts) and at `v = 513`, where the bound
31 is met. -/
theorem msb8bit_range_witness :
    msb8bit 200 ≤ 31 ∧ msb8bit 200 ≤ 7 ∧ msb8bit 513 ≤ 31 ∧ msb8bit 513 = 31 :=
  ⟨(msb8bit_range 200 (by decide)).1, (msb8bit_range 200 (by decide)).2 (by decide),
   (msb8bit_range 513 (by decide)).1, by decide⟩

/-- C14: result bits are accumulated MSB-first, so a shorter run is a prefix of a longer one.
For every nonzero 32-bit `v` and `F + 1 ≤ 28`, `ilog2_32(v, F) = ilog2_32(v, F + 1) >> 1` and
both calls write the same `intPart`; likewise for `ilog2_64` on nonzero 64-bit `v` with
`F + 1 ≤ 30`. -/
theorem ilog2_shorter_run (v F p : Nat) (hv : 0 < v) :
    (v < 2 ^ 32 → F + 1 ≤ 28 →
      ∃ frac frac1 intPart, ilog2_32 v F p = .ok (frac, intPart) ∧
        ilog2_32 v (F + 1) p = .ok (frac1, intPart) ∧ frac = frac1 >>> 1) ∧
    (v < 2 ^ 64 → F + 1 ≤ 30 →
      ∃ frac frac1 intPart, ilog2_64 v F p = .ok (frac, intPart) ∧
        ilog2_64 v (F + 1) p = .ok (frac1, intPart) ∧ frac = frac1 >>> 1) := by
  constructor
  · intro hw hF
    refine ⟨_, _, _, ilog2_32_eq p hv hw (by omega), ilog2_32_eq p hv hw hF, ?_⟩
    split
    · rfl
    · rw [Function.iterate_succ_apply']
      have hlt := iter32_resultBits_lt F
        { v := v >>> bitScanForwardCore v
          nFracBits := Nat.log 2 v - bitScanForwardCore v
          resultBits := 0 } rfl
      have hpow : 2 ^ F ≤ 2 ^ 27 := Nat.pow_le_pow_right (by norm_num) (by omega)
      exact (squareExtract_resultBits_shr 32 _ _ _ (by omega)).symm
  · intro hw hF
    refine ⟨_, _, _, ilog2_64_eq p hv hw (by omega), ilog2_64_eq p hv hw hF, ?_⟩
    split
    · rfl
    · rw [Function.iterate_succ_apply']
      have hlt := iter64_resultBits_lt F
        { v := v >>> bitScanForwardCore v
          nFracBits := Nat.log 2 v - bitScanForwardCore v
          resultBits := 0 } rfl
      have hpow : 2 ^ F ≤ 2 ^ 29 := Nat.pow_le_pow_right (by norm_num) (by omega)
      exact (squareExtract_resultBits_shr 64 _ _ _ (by omega)).symm

/-- Witness of C14 at `v = 0x12345`, `F = 3`. -/
theorem ilog2_shorter_run_witness :
    (∃ frac frac1 intPart, ilog2_32 0x12345 3 0 = .ok (frac, intPart) ∧
        ilog2_32 0x12345 (3 + 1) 0 = .ok (frac1, intPart) ∧ frac = frac1 >>> 1) ∧
    (∃ frac frac1 intPart, ilog2_64 0x12345 3 0 = .ok (frac, intPart) ∧
        ilog2_64 0x12345 (3 + 1) 0 = .ok (frac1, intPart) ∧ frac = frac1 >>> 1) :=
  ⟨(ilog2_shorter_run 0x12345 3 0 (by decide)).1 (by decide) (by decide),
   (ilog2_shorter_run 0x12345 3 0 (by decide)).2 (by decide) (by decide)⟩

/-- C15: the first extracted bit is the exact first fractional bit when no renormalisation is
needed.  For every `v` with `0 < v < 2 ^ 16` and `intPart = ⌊log2 v⌋`, `ilog2_32(v, 1)`
returns 1 if `v ^ 2 ≥ 2 ^ (2 * intPart + 1)` and 0 otherwise, so that
`2 * intPart + ilog2_32(v, 1) = ⌊log2 (v ^ 2)⌋ = ⌊2 * log2 v⌋`. -/
theorem ilog2_32_first_bit (v p : Nat) (hv : 0 < v) (hw : v < 2 ^ 16) :
    ilog2_32 v 1 p =
        .ok (if 2 ^ (2 * Nat.log 2 v + 1) ≤ v ^ 2 then 1 else 0, Nat.log 2 v) ∧
      2 * Nat.log 2 v + (if 2 ^ (2 * Nat.log 2 v + 1) ≤ v ^ 2 then 1 else 0)
        = Nat.log 2 (v ^ 2) := by
  have hw32 : v < 2 ^ 32 := lt_trans hw (by norm_num)
  have hw64 : v < 2 ^ 64 := lt_trans hw (by norm_num)
  obtain ⟨-, -, hlow⟩ := bitScanForwardCore_spec hv hw64
  have hle := bitScanForwardCore_le_log hv hw64
  have hmul := shiftRight_mul_two_pow hlow
  obtain ⟨hL, h1, h2⟩ := log2_bounds hv hw
  have hsq1 : 2 ^ (2 * Nat.log 2 v) ≤ v ^ 2 := by
    have : 2 ^ (2 * Nat.log 2 v) = (2 ^ Nat.log 2 v) ^ 2 := by ring
    rw [this]
    exact Nat.pow_le_pow_left h1 2
  have hsq2 : v ^ 2 < 2 ^ (2 * Nat.log 2 v + 2) := by
    have : 2 ^ (2 * Nat.log 2 v + 2) = (2 ^ (Nat.log 2 v + 1)) ^ 2 := by ring
    rw [this]
    exact Nat.pow_lt_pow_left h2 (by norm_num)
  constructor
  · rw [ilog2_32_eq p hv hw32 (by norm_num)]
    by_cases hfast : Nat.log 2 v = bitScanForwardCore v
    · -- a power of two: the fast path
      have hv2 : v = 2 ^ Nat.log 2 v := by
        have hwlt : v >>> bitScanForwardCore v < 2 := by
          by_contra hge
          have : 2 * 2 ^ bitScanForwardCore v ≤ (v >>> bitScanForwardCore v) *
              2 ^ bitScanForwardCore v := Nat.mul_le_mul_right _ (Nat.le_of_not_lt hge)
          rw [hmul, ← hfast] at this
          rw [Nat.pow_succ] at h2
          omega
        have hwpos : 0 < v >>> bitScanForwardCore v := by
          rcases Nat.eq_zero_or_pos (v >>> bitScanForwardCore v) with h0 | h0
          · rw [h0, Nat.zero_mul] at hmul
            omega
          · exact h0
        have hone : v >>> bitScanForwardCore v = 1 := by omega
        rw [hone, Nat.one_mul, ← hfast] at hmul
        exact hmul.symm
      have hnot : ¬ 2 ^ (2 * Nat.log 2 v + 1) ≤ v ^ 2 := by
        have hpw : v ^ 2 = 2 ^ (2 * Nat.log 2 v) := by
          conv_lhs => rw [hv2]
          ring
        rw [hpw]
        exact Nat.not_le.mpr (Nat.pow_lt_pow_right (by norm_num) (by omega))
      rw [if_pos hfast, if_neg hnot]
    · have hwlt : v >>> bitScanForwardCore v < 2 ^ 16 := by
        rw [Nat.shiftRight_eq_div_pow]
        exact lt_of_le_of_lt (Nat.div_le_self _ _) hw
      have hsq : v >>> bitScanForwardCore v * (v >>> bitScanForwardCore v) < 2 ^ 32 := by
        have := Nat.mul_lt_mul'' hwlt hwlt
        simpa using this
      have hv2 : v ^ 2 = v >>> bitScanForwardCore v * (v >>> bitScanForwardCore v) *
          2 ^ (2 * bitScanForwardCore v) := by
        conv_lhs => rw [← hmul]
        ring
      have hp2 : 2 ^ (2 * Nat.log 2 v + 1) =
          2 ^ (2 * (Nat.log 2 v - bitScanForwardCore v) + 1) *
            2 ^ (2 * bitScanForwardCore v) := by
        rw [← Nat.pow_add]
        congr 1
        omega
      have hiff : 2 ^ (2 * (Nat.log 2 v - bitScanForwardCore v) + 1) ≤
            v >>> bitScanForwardCore v * (v >>> bitScanForwardCore v) ↔
          2 ^ (2 * Nat.log 2 v + 1) ≤ v ^ 2 := by
        rw [hv2, hp2]
        exact ⟨fun h => Nat.mul_le_mul_right _ h,
          fun h => Nat.le_of_mul_le_mul_right h (Nat.two_pow_pos _)⟩
      rw [if_neg hfast, Function.iterate_one]
      unfold iterBody32
      simp only [renorm32_small _ hwlt]
      rw [squareExtract_exact hsq (by omega) (by norm_num)]
      by_cases hc : 2 ^ (2 * Nat.log 2 v + 1) ≤ v ^ 2
      · rw [if_pos (hiff.mpr hc), if_pos hc]
      · rw [if_neg (fun h => hc (hiff.mp h)), if_neg hc]
  · by_cases hc : 2 ^ (2 * Nat.log 2 v + 1) ≤ v ^ 2
    · rw [if_pos hc]
      exact (Nat.log_eq_of_pow_le_of_lt_pow hc hsq2).symm
    · rw [if_neg hc]
      exact (Nat.log_eq_of_pow_le_of_lt_pow hsq1 (Nat.lt_of_not_le hc)).symm

/-- Witness of C15 at `v = 3` (bit 1) and `v = 5` (bit 0). -/
theorem ilog2_32_first_bit_witness :
    (ilog2_32 3 1 0 = .ok (if 2 ^ (2 * Nat.log 2 3 + 1) ≤ 3 ^ 2 then 1 else 0, Nat.log 2 3) ∧
      2 * Nat.log 2 3 + (if 2 ^ (2 * Nat.log 2 3 + 1) ≤ 3 ^ 2 then 1 else 0)
        = Nat.log 2 (3 ^ 2)) ∧
    (ilog2_32 5 1 0 = .ok (if 2 ^ (2 * Nat.log 2 5 + 1) ≤ 5 ^ 2 then 1 else 0, Nat.log 2 5) ∧
      2 * Nat.log 2 5 + (if 2 ^ (2 * Nat.log 2 5 + 1) ≤ 5 ^ 2 then 1 else 0)
        = Nat.log 2 (5 ^ 2)) :=
  ⟨ilog2_32_first_bit 3 0 (by decide) (by decide),
   ilog2_32_first_bit 5 0 (by decide) (by decide)⟩

/-- C17: scaling the input by a power of two only shifts the integer part.  For every
nonzero 32-bit `v`, every `k` with `v * 2 ^ k < 2 ^ 32` and every `F ≤ 28`,
`ilog2_32(v * 2 ^ k, F)` returns the fraction of `ilog2_32(v, F)` and writes
`intPart(v) + k`. -/
theorem ilog2_32_scale (v k F p : Nat) (hv : 0 < v) (hk : v * 2 ^ k < 2 ^ 32)
    (hF : F ≤ 28) :
    ∃ frac intPart, ilog2_32 v F p = .ok (frac, intPart) ∧
      ilog2_32 (v * 2 ^ k) F p = .ok (frac, intPart + k) := by
  have hw : v < 2 ^ 32 :=
    lt_of_le_of_lt (Nat.le_mul_of_pos_right v (Nat.two_pow_pos k)) hk
  have hk64 : v * 2 ^ k < 2 ^ 64 := lt_trans hk (by norm_num)
  have hle := bitScanForwardCore_le_log hv (lt_trans hw (by norm_num))
  refine ⟨_, _, ilog2_32_eq p hv hw hF, ?_⟩
  rw [ilog2_32_eq p (Nat.mul_pos hv (Nat.two_pow_pos k)) hk hF, log_mul_two_pow k hv,
    bitScanForwardCore_mul_two_pow k hv hk64]
  have hshift : (v * 2 ^ k) >>> (bitScanForwardCore v + k) = v >>> bitScanForwardCore v := by
    rw [Nat.add_comm, Nat.shiftRight_add, Nat.shiftRight_eq_div_pow (v * 2 ^ k),
      Nat.mul_div_cancel _ (Nat.two_pow_pos k)]
  have hsub : Nat.log 2 v + k - (bitScanForwardCore v + k)
      = Nat.log 2 v - bitScanForwardCore v := by omega
  rw [hshift, hsub]
  by_cases hfast : Nat.log 2 v = bitScanForwardCore v
  · rw [if_pos hfast, if_pos (by omega)]
  · rw [if_neg hfast, if_neg (by omega)]

/-- Witness of C17 at `v = 5`, `k = 8`, `F = 16`. -/
theorem ilog2_32_scale_witness :
    ∃ frac intPart, ilog2_32 5 16 0 = .ok (frac, intPart) ∧
      ilog2_32 (5 * 2 ^ 8) 16 0 = .ok (frac, intPart + 8) :=
  ilog2_32_scale 5 8 16 0 (by decide) (by decide) (by decide)

/-- C19: the rounding addition of `ilog2_32` wraps for the largest odd inputs and the
fraction collapses to zero.  For every odd `v` with `0xFFFF0001 ≤ v ≤ 0xFFFFFFFF` and every
`F ≤ 28`: the first renormalisation round has `rShifts = 16` and computes
`((v + 0xFFFF) mod 2 ^ 32) >> 16 = 0`, the working value is 0 after every later iteration,
and `ilog2_32(v, F)` returns 0 with `intPart = 31`. -/
theorem ilog2_32_wrap (v F p : Nat) (hodd : v % 2 = 1) (hlo : 0xFFFF0001 ≤ v)
    (hhi : v ≤ 0xFFFFFFFF) (hF : F ≤ 28) :
    ((v + 0xFFFF) % 2 ^ 32) >>> 16 = 0 ∧
    renormRound32 v 31 = (0, 15) ∧
    (∀ i, 1 ≤ i →
      (iterBody32^[i] { v := v, nFracBits := 31, resultBits := 0 }).v = 0 ∧
      (iterBody32^[i] { v := v, nFracBits := 31, resultBits := 0 }).resultBits = 0) ∧
    ilog2_32 v F p = .ok (0, 31) := by
  have hw : v < 2 ^ 32 := by omega
  have hwrap : ((v + 0xFFFF) % 2 ^ 32) >>> 16 = 0 := by
    rw [Nat.shiftRight_eq_div_pow]
    omega
  have hround : renormRound32 v 31 = (0, 15) := by
    have hsh : v >>> 16 = 65535 := by
      rw [Nat.shiftRight_eq_div_pow]
      omega
    have hm : (msb16bit (65535 % 2 ^ 16) + 1) % 2 ^ 32 = 16 := by decide
    have hh : halfOf 16 = 0xFFFF := by decide
    unfold renormRound32
    simp only [hsh, hm, hh, hwrap]
    rfl
  have hfirst : iterBody32 { v := v, nFracBits := 31, resultBits := 0 } =
      { v := 0, nFracBits := 30, resultBits := 0 } := by
    have hren : renorm32 v 31 = (0, 15) := by
      rw [renorm32_unfold, if_pos (by omega), hround]
      exact renorm32_small 15 (by norm_num)
    unfold iterBody32
    simp only [hren]
    decide
  have hiter : ∀ i, 1 ≤ i →
      (iterBody32^[i] { v := v, nFracBits := 31, resultBits := 0 }).v = 0 ∧
      (iterBody32^[i] { v := v, nFracBits := 31, resultBits := 0 }).resultBits = 0 := by
    intro i hi
    obtain ⟨j, rfl⟩ : ∃ j, i = j + 1 := ⟨i - 1, by omega⟩
    rw [Function.iterate_succ_apply, hfirst]
    obtain ⟨m, hm⟩ := iterate32_zero j 30
    rw [hm]
    exact ⟨rfl, rfl⟩
  refine ⟨hwrap, hround, hiter, ?_⟩
  have hlog : Nat.log 2 v = 31 := Nat.log_eq_of_pow_le_of_lt_pow (by omega) (by omega)
  have hcore : bitScanForwardCore v = 0 :=
    bitScanForwardCore_odd (lt_trans hw (by norm_num)) hodd
  rw [ilog2_32_eq p (by omega) hw hF, hlog, hcore, if_neg (by norm_num)]
  rcases Nat.eq_zero_or_pos F with h0 | hpos
  · subst h0
    rfl
  · have := (hiter F hpos).2
    simp only [Nat.shiftRight_zero, Nat.sub_zero]
    rw [this]

/-- Witness of C19 at `v = 0xFFFFFFFF`, `F = 28`. -/
theorem ilog2_32_wrap_witness :
    ((0xFFFFFFFF + 0xFFFF) % 2 ^ 32) >>> 16 = 0 ∧
    renormRound32 0xFFFFFFFF 31 = (0, 15) ∧
    (∀ i, 1 ≤ i →
      (iterBody32^[i] { v := 0xFFFFFFFF, nFracBits := 31, resultBits := 0 }).v = 0 ∧
      (iterBody32^[i] { v := 0xFFFFFFFF, nFracBits := 31, resultBits := 0 }).resultBits = 0) ∧
    ilog2_32 0xFFFFFFFF 28 0 = .ok (0, 31) :=
  ilog2_32_wrap 0xFFFFFFFF 28 0 (by decide) (by decide) (by decide) (by decide)

/-- C12 fails as stated: on the working value `0x20001` the round has `rShifts = 2` and
leaves `0x8001`, the value rounded up, while rounding half-up,
`⌊(v + 2 ^ (s - 1)) / 2 ^ s⌋`, gives `0x8000`. -/
theorem renormRound32_half_up_counterexample :
    2 ^ 16 ≤ 0x20001 ∧ 0x20001 < 2 ^ 32 ∧ msb16bit (0x20001 >>> 16) + 1 = 2 ∧
    (renormRound32 0x20001 17).1 = 0x8001 ∧
    (0x20001 + 2 ^ (2 - 1)) / 2 ^ 2 = 0x8000 ∧
    ¬ ((renormRound32 0x20001 17).1 = (0x20001 + 2 ^ (2 - 1)) / 2 ^ 2) := by
  decide

/-- C12, amended: renormalisation in `ilog2_32` rounds up.  For every working value `v` with
`2 ^ 16 ≤ v ≤ 0xFFFF0000`, one round of the loop, with `s = msb16bit(v >> 16) + 1` (so
`1 ≤ s ≤ 16`), replaces `v` by `⌊(v + 2 ^ s - 1) / 2 ^ s⌋`, the least `r` with
`v ≤ r * 2 ^ s`, and decreases `nFracBits` by `s` in `size_t` arithmetic (to
`nFracBits - s` when `s ≤ nFracBits`). -/
theorem renormRound32_round_up (v n : Nat) (h1 : 2 ^ 16 ≤ v) (h2 : v ≤ 0xFFFF0000) :
    1 ≤ msb16bit (v >>> 16) + 1 ∧ msb16bit (v >>> 16) + 1 ≤ 16 ∧
    (renormRound32 v n).1 = (v + (2 ^ (msb16bit (v >>> 16) + 1) - 1)) /
      2 ^ (msb16bit (v >>> 16) + 1) ∧
    v ≤ (renormRound32 v n).1 * 2 ^ (msb16bit (v >>> 16) + 1) ∧
    ((renormRound32 v n).1 - 1) * 2 ^ (msb16bit (v >>> 16) + 1) < v ∧
    (renormRound32 v n).2 = (n + 2 ^ 64 - (msb16bit (v >>> 16) + 1)) % 2 ^ 64 ∧
    (msb16bit (v >>> 16) + 1 ≤ n → n < 2 ^ 64 →
      (renormRound32 v n).2 = n - (msb16bit (v >>> 16) + 1)) := by
  have hw : v < 2 ^ 32 := by omega
  obtain ⟨-, hs, hlo, hhi⟩ := rShifts32_eq h1 hw
  rw [hs, renormRound32_eq n h1 hw]
  have hlt : v < 2 ^ (Nat.log 2 v + 1) := Nat.lt_pow_succ_log_self (by norm_num) v
  have hpos := Nat.two_pow_pos (Nat.log 2 v - 15)
  have hnowrap : v + (2 ^ (Nat.log 2 v - 15) - 1) < 2 ^ 32 := by
    rcases Nat.lt_or_ge (Nat.log 2 v) 31 with h | h
    · have e1 : 2 ^ (Nat.log 2 v + 1) ≤ 2 ^ 31 := Nat.pow_le_pow_right (by norm_num) (by omega)
      have e2 : 2 ^ (Nat.log 2 v - 15) ≤ 2 ^ 15 := Nat.pow_le_pow_right (by norm_num) (by omega)
      omega
    · have e : Nat.log 2 v - 15 = 16 := by omega
      rw [e]
      omega
  have hdiv : ((v + (2 ^ (Nat.log 2 v - 15) - 1)) % 2 ^ 32) >>> (Nat.log 2 v - 15)
      = (v + (2 ^ (Nat.log 2 v - 15) - 1)) / 2 ^ (Nat.log 2 v - 15) := by
    rw [Nat.mod_eq_of_lt hnowrap, Nat.shiftRight_eq_div_pow]
  simp only [hdiv]
  have hdm := Nat.div_add_mod (v + (2 ^ (Nat.log 2 v - 15) - 1)) (2 ^ (Nat.log 2 v - 15))
  have hml := Nat.mod_lt (v + (2 ^ (Nat.log 2 v - 15) - 1)) hpos
  generalize (v + (2 ^ (Nat.log 2 v - 15) - 1)) / 2 ^ (Nat.log 2 v - 15) = q at hdm ⊢
  generalize (v + (2 ^ (Nat.log 2 v - 15) - 1)) % 2 ^ (Nat.log 2 v - 15) = r at hdm hml
  rw [Nat.mul_comm] at hdm
  have hq : 0 < q := by
    rcases Nat.eq_zero_or_pos q with h0 | h0
    · rw [h0] at hdm
      have : 2 ^ (Nat.log 2 v - 15) ≤ 2 ^ 16 := Nat.pow_le_pow_right (by norm_num) (by omega)
      omega
    · exact h0
  have hq1 : (q - 1) * 2 ^ (Nat.log 2 v - 15) + 2 ^ (Nat.log 2 v - 15)
      = q * 2 ^ (Nat.log 2 v - 15) := by
    obtain ⟨q', rfl⟩ : ∃ q', q = q' + 1 := ⟨q - 1, by omega⟩
    simp [Nat.add_mul]
  refine ⟨by omega, by omega, trivial, by omega, by omega, trivial, ?_⟩
  intro hsn hn
  omega

/-- Witness of the amended C12 at `v = 0x20001`, `nFracBits = 17`. -/
theorem renormRound32_round_up_witness :
    1 ≤ msb16bit (0x20001 >>> 16) + 1 ∧ msb16bit (0x20001 >>> 16) + 1 ≤ 16 ∧
    (renormRound32 0x20001 17).1 = (0x20001 + (2 ^ (msb16bit (0x20001 >>> 16) + 1) - 1)) /
      2 ^ (msb16bit (0x20001 >>> 16) + 1) ∧
    0x20001 ≤ (renormRound32 0x20001 17).1 * 2 ^ (msb16bit (0x20001 >>> 16) + 1) ∧
    ((renormRound32 0x20001 17).1 - 1) * 2 ^ (msb16bit (0x20001 >>> 16) + 1) < 0x20001 ∧
    (renormRound32 0x20001 17).2 = (17 + 2 ^ 64 - (msb16bit (0x20001 >>> 16) + 1)) % 2 ^ 64 ∧
    (renormRound32 0x20001 17).2 = 17 - (msb16bit (0x20001 >>> 16) + 1) :=
  have h := renormRound32_round_up 0x20001 17 (by decide) (by decide)
  ⟨h.1, h.2.1, h.2.2.1, h.2.2.2.1, h.2.2.2.2.1, h.2.2.2.2.2.1,
   h.2.2.2.2.2.2 (by decide) (by decide)⟩

/-- C13 (evaluation at the failing input): on the working value `2 ^ 64 - 1`, the first
working value of `ilog2_64(0xFFFFFFFFFFFFFFFF, F)`, the round has `rShifts = 32` and the
addend `(1 << 32) - 1`, formed in 32-bit `int`, is 0: nothing is added and the round leaves
`v >> 32 = 0xFFFFFFFF`, not the exact value `⌊(v + 2 ^ 32 - 1) / 2 ^ 32⌋ = 2 ^ 32`.  Likewise
on `2 ^ 63 + 1`, the first working value of `ilog2_64(0x8000000000000001, F)`: the round
leaves `2 ^ 31` where the exact value is `2 ^ 31 + 1`.  At `2 ^ 64 - 1` no addend at all
could give the exact value in 64 bits. -/
theorem renormRound64_truncates :
    2 ^ 32 ≤ 2 ^ 64 - 1 ∧ msb32bit ((2 ^ 64 - 1) >>> 32) + 1 = 32 ∧ halfOf 32 = 0 ∧
    (2 ^ 64 - 1 + (2 ^ 32 - 1)) / 2 ^ 32 = 2 ^ 32 ∧
    renormRound64 (2 ^ 64 - 1) 63 = (0xFFFFFFFF, 31) ∧
    ¬ ((renormRound64 (2 ^ 64 - 1) 63).1 = (2 ^ 64 - 1 + (2 ^ 32 - 1)) / 2 ^ 32) ∧
    msb32bit ((2 ^ 63 + 1) >>> 32) + 1 = 32 ∧
    (2 ^ 63 + 1 + (2 ^ 32 - 1)) / 2 ^ 32 = 2 ^ 31 + 1 ∧
    renormRound64 (2 ^ 63 + 1) 63 = (2 ^ 31, 31) ∧
    ¬ ((renormRound64 (2 ^ 63 + 1) 63).1 = (2 ^ 63 + 1 + (2 ^ 32 - 1)) / 2 ^ 32) ∧
    (∀ half : Nat, ((2 ^ 64 - 1 + half) % 2 ^ 64) >>> 32 < 2 ^ 32) := by
  refine ⟨by decide, by decide, by decide, by decide, by decide, by decide, by decide,
    by decide, by decide, by decide, ?_⟩
  intro half
  rw [Nat.shiftRight_eq_div_pow]
  have := Nat.mod_lt (2 ^ 64 - 1 + half) (Nat.two_pow_pos 64)
  omega

/-- C16: the renormalisation loop is bounded.  In `ilog2_32`, from any 32-bit working value
`v ≥ 2 ^ 16` the inner loop runs one or two rounds and exits with a value below `2 ^ 16`;
in `ilog2_64`, from any 64-bit working value `v ≥ 2 ^ 32` it runs one or two rounds and
exits with a value below `2 ^ 32`.  Hence the `F` iterations of a call, from any state whose
working value fits the accumulator, run at most `2 * F` rounds in total. -/
theorem renorm_bounded (v n : Nat) :
    (2 ^ 16 ≤ v → v < 2 ^ 32 →
      1 ≤ renormRounds32 v n ∧ renormRounds32 v n ≤ 2 ∧
        renorm32 v n = renormWhile32 2 v n ∧ (renorm32 v n).1 < 2 ^ 16) ∧
    (2 ^ 32 ≤ v → v < 2 ^ 64 →
      1 ≤ renormRounds64 v n ∧ renormRounds64 v n ≤ 2 ∧
        renorm64 v n = renormWhile64 2 v n ∧ (renorm64 v n).1 < 2 ^ 32) ∧
    (∀ (F : Nat) (s : LoopState), s.v < 2 ^ 32 → callRounds32 F s ≤ 2 * F) ∧
    (∀ (F : Nat) (s : LoopState), s.v < 2 ^ 64 → callRounds64 F s ≤ 2 * F) := by
  refine ⟨?_, ?_, callRounds32_le, callRounds64_le⟩
  · intro h1 h2
    obtain ⟨hle, heq⟩ := renorm32_two_rounds v n h2
    refine ⟨?_, hle, heq, renorm32_exit v n⟩
    rw [renormRounds32_unfold, if_pos h1]
    omega
  · intro h1 h2
    obtain ⟨hle, heq⟩ := renorm64_two_rounds v n h2
    refine ⟨?_, hle, heq, renorm64_exit v n⟩
    rw [renormRounds64_unfold, if_pos h1]
    omega

/-- Witness of C16: the 32-bit loop from `0xFFFF0000` and the 64-bit loop from
`0xFFFFFFFF00000000`, each of which exits after one round, and 28 resp. 30 iterations from
the states with working value `0xFFFF` resp. `0xFFFFFFFF`. -/
theorem renorm_bounded_witness :
    (1 ≤ renormRounds32 0xFFFF0000 31 ∧ renormRounds32 0xFFFF0000 31 ≤ 2 ∧
        renorm32 0xFFFF0000 31 = renormWhile32 2 0xFFFF0000 31 ∧
        (renorm32 0xFFFF0000 31).1 < 2 ^ 16) ∧
    (1 ≤ renormRounds64 0xFFFFFFFF00000000 63 ∧ renormRounds64 0xFFFFFFFF00000000 63 ≤ 2 ∧
        renorm64 0xFFFFFFFF00000000 63 = renormWhile64 2 0xFFFFFFFF00000000 63 ∧
        (renorm64 0xFFFFFFFF00000000 63).1 < 2 ^ 32) ∧
    callRounds32 28 { v := 0xFFFF, nFracBits := 15, resultBits := 0 } ≤ 2 * 28 ∧
    callRounds64 30 { v := 0xFFFFFFFF, nFracBits := 31, resultBits := 0 } ≤ 2 * 30 :=
  ⟨(renorm_bounded 0xFFFF0000 31).1 (by decide) (by decide),
   (renorm_bounded 0xFFFFFFFF00000000 63).2.1 (by decide) (by decide),
   (renorm_bounded 0 0).2.2.1 28 _ (by decide),
   (renorm_bounded 0 0).2.2.2 30 _ (by decide)⟩

/-- C18: `ilog2_32` never underestimates the truncated logarithm.  For every nonzero
`v ≤ 0xFFFF0000` and every `F ≤ 28`, with `(frac, intPart)` the result of `ilog2_32(v, F)`,
`v ^ (2 ^ F) < 2 ^ (intPart * 2 ^ F + frac + 1)`, that is
`intPart * 2 ^ F + frac ≥ ⌊log2 (v ^ (2 ^ F))⌋ = ⌊2 ^ F * log2 v⌋`. -/
theorem ilog2_32_not_below (v F p : Nat) (hv : 0 < v) (hv2 : v ≤ 0xFFFF0000) (hF : F ≤ 28) :
    ∃ frac intPart, ilog2_32 v F p = .ok (frac, intPart) ∧
      v ^ 2 ^ F < 2 ^ (intPart * 2 ^ F + frac + 1) ∧
      Nat.log 2 (v ^ 2 ^ F) ≤ intPart * 2 ^ F + frac := by
  have hw : v < 2 ^ 32 := by omega
  have hw64 : v < 2 ^ 64 := by omega
  have key : ∃ frac, ilog2_32 v F p = .ok (frac, Nat.log 2 v) ∧
      v ^ 2 ^ F < 2 ^ (Nat.log 2 v * 2 ^ F + frac + 1) := by
    rw [ilog2_32_eq p hv hw hF]
    by_cases hfast : Nat.log 2 v = bitScanForwardCore v
    · refine ⟨0, by rw [if_pos hfast], ?_⟩
      have hpw : v ^ 2 ^ F = 2 ^ (Nat.log 2 v * 2 ^ F) := by
        conv_lhs => rw [eq_two_pow_of_log_eq_core hv hw64 hfast]
        rw [← Nat.pow_mul]
      rw [hpw]
      exact Nat.pow_lt_pow_right (by norm_num) (by omega)
    · refine ⟨_, by rw [if_neg hfast], ?_⟩
      obtain ⟨⟨-, hb, -⟩, -, hJ⟩ := iterate32_inv hv hv2 F (by omega)
      rw [loopStart32_eq hv hw] at hb hJ
      generalize (iterBody32^[F]
        { v := v >>> bitScanForwardCore v
          nFracBits := Nat.log 2 v - bitScanForwardCore v
          resultBits := 0 }) = s at hb hJ ⊢
      have hle : v ^ 2 ^ F ≤ 2 ^ (Nat.log 2 v * 2 ^ F + s.resultBits + 1) := by
        apply Nat.le_of_mul_le_mul_right _ (Nat.two_pow_pos s.nFracBits)
        calc v ^ 2 ^ F * 2 ^ s.nFracBits
            ≤ s.v * 2 ^ (Nat.log 2 v * 2 ^ F + s.resultBits) := hJ
          _ ≤ 2 ^ (s.nFracBits + 1) * 2 ^ (Nat.log 2 v * 2 ^ F + s.resultBits) :=
              Nat.mul_le_mul_right _ hb
          _ = 2 ^ (Nat.log 2 v * 2 ^ F + s.resultBits + 1) * 2 ^ s.nFracBits := by ring
      rcases Nat.lt_or_ge (v ^ 2 ^ F) (2 ^ (Nat.log 2 v * 2 ^ F + s.resultBits + 1)) with h | h
      · exact h
      · exfalso
        have heq : v ^ 2 ^ F = 2 ^ (Nat.log 2 v * 2 ^ F + s.resultBits + 1) :=
          Nat.le_antisymm hle h
        have hdvd : v ∣ 2 ^ (Nat.log 2 v * 2 ^ F + s.resultBits + 1) := by
          rw [← heq]
          exact dvd_pow_self v (Nat.pos_iff_ne_zero.mp (Nat.two_pow_pos F))
        obtain ⟨m, -, hm⟩ := (Nat.dvd_prime_pow Nat.prime_two).1 hdvd
        exact not_two_pow_of_slow hw hfast m hm
  obtain ⟨frac, h, hlt⟩ := key
  refine ⟨frac, _, h, hlt, ?_⟩
  have hne : v ^ 2 ^ F ≠ 0 := Nat.pos_iff_ne_zero.mp (Nat.pow_pos hv)
  have := (Nat.lt_pow_iff_log_lt (show 1 < 2 by norm_num) hne).1 hlt
  omega

/-- Witness of C18 at `v = 0xFFFF0000`, the largest admitted input, with `F = 28`, and at
`v = 3`, `F = 2`. -/
theorem ilog2_32_not_below_witness :
    (∃ frac intPart, ilog2_32 0xFFFF0000 28 0 = .ok (frac, intPart) ∧
      0xFFFF0000 ^ 2 ^ 28 < 2 ^ (intPart * 2 ^ 28 + frac + 1) ∧
      Nat.log 2 (0xFFFF0000 ^ 2 ^ 28) ≤ intPart * 2 ^ 28 + frac) ∧
    (∃ frac intPart, ilog2_32 3 2 0 = .ok (frac, intPart) ∧
      3 ^ 2 ^ 2 < 2 ^ (intPart * 2 ^ 2 + frac + 1) ∧
      Nat.log 2 (3 ^ 2 ^ 2) ≤ intPart * 2 ^ 2 + frac) :=
  ⟨ilog2_32_not_below 0xFFFF0000 28 0 (by decide) (by decide) (by decide),
   ilog2_32_not_below 3 2 0 (by decide) (by decide) (by decide)⟩

/-- C20: the loop invariant of `ilog2_32` that keeps all arithmetic in range.  For every
nonzero, non-power-of-two `v ≤ 0xFFFF0000` and every `F ≤ 28`, the call returns the
`resultBits` of `F` iterations from the loop entry state, and after `i ≤ F` iterations (at
the start of each iteration and at loop exit) the working value `w` and `nFracBits = n`
satisfy `2 ^ n ≤ w ≤ 2 ^ (n + 1)` and `w ≤ 0xFFFF0000`.  Consequently, in the iteration
starting there, every round of the inner loop that runs has `rShifts ≤ nFracBits` and
`w + half ≤ 2 ^ 32 - 1`, the square `w * w` is at most `2 ^ 32 - 1`, and the extraction
shift amount `nFracBits + 1` is at most 31. -/
theorem ilog2_32_loop_invariant (v F p i : Nat) (hv : 0 < v) (hv2 : v ≤ 0xFFFF0000)
    (hnp : ∀ k, v ≠ 2 ^ k) (hF : F ≤ 28) (hi : i ≤ F) :
    ilog2_32 v F p = .ok ((iterBody32^[F] (loopStart32 v)).resultBits, msb32bit v) ∧
    FracInv (iterBody32^[i] (loopStart32 v)).v (iterBody32^[i] (loopStart32 v)).nFracBits ∧
    (∀ j, 2 ^ 16 ≤ (renormWhile32 j (iterBody32^[i] (loopStart32 v)).v
          (iterBody32^[i] (loopStart32 v)).nFracBits).1 →
      msb16bit ((renormWhile32 j (iterBody32^[i] (loopStart32 v)).v
          (iterBody32^[i] (loopStart32 v)).nFracBits).1 >>> 16) + 1 ≤
        (renormWhile32 j (iterBody32^[i] (loopStart32 v)).v
          (iterBody32^[i] (loopStart32 v)).nFracBits).2 ∧
      (renormWhile32 j (iterBody32^[i] (loopStart32 v)).v
          (iterBody32^[i] (loopStart32 v)).nFracBits).1 +
        halfOf (msb16bit ((renormWhile32 j (iterBody32^[i] (loopStart32 v)).v
          (iterBody32^[i] (loopStart32 v)).nFracBits).1 >>> 16) + 1) ≤ 2 ^ 32 - 1) ∧
    (renorm32 (iterBody32^[i] (loopStart32 v)).v
        (iterBody32^[i] (loopStart32 v)).nFracBits).1 *
      (renorm32 (iterBody32^[i] (loopStart32 v)).v
        (iterBody32^[i] (loopStart32 v)).nFracBits).1 ≤ 2 ^ 32 - 1 ∧
    2 * (renorm32 (iterBody32^[i] (loopStart32 v)).v
        (iterBody32^[i] (loopStart32 v)).nFracBits).2 + 1 ≤ 31 := by
  have hw : v < 2 ^ 32 := by omega
  have hw64 : v < 2 ^ 64 := by omega
  have hslow : Nat.log 2 v ≠ bitScanForwardCore v := fun h =>
    hnp _ (eq_two_pow_of_log_eq_core hv hw64 h)
  obtain ⟨hinv, hr, hJ⟩ := iterate32_inv hv hv2 i (by omega)
  have hr31 : (iterBody32^[i] (loopStart32 v)).resultBits < 2 ^ 31 :=
    lt_of_lt_of_le hr (Nat.pow_le_pow_right (by norm_num) (by omega))
  obtain ⟨hsq, hshift, -, -⟩ := iterBody32_keeps hinv hJ hr31
  refine ⟨?_, hinv, ?_, hsq, hshift⟩
  · rw [ilog2_32_eq p hv hw hF, if_neg hslow, loopStart32_eq hv hw, msb32bit_eq_log hv hw]
  · intro j hj
    have hkeep := renormWhile32_induct (fun w n => FracInv w n)
      (fun w n h hQ =>
        (renormRound32_keeps (x := 0) (e := 0) h hQ (by simp)).2.2.1) j _ _ hinv
    obtain ⟨h1, h2, -, -⟩ := renormRound32_keeps (x := 0) (e := 0) hj hkeep (by simp)
    exact ⟨h1, h2⟩

/-- Witness of C20 at `v = 0xFFFEFFFF`, `F = 28`: the invariant and the bounds on the square
and the extraction shift after `i = 5` iterations, and the bounds on the first round of the
inner loop at the start of the first iteration (`i = 0`, before any round, `j = 0`). -/
theorem ilog2_32_loop_invariant_witness :
    ilog2_32 0xFFFEFFFF 28 0 =
      .ok ((iterBody32^[28] (loopStart32 0xFFFEFFFF)).resultBits, msb32bit 0xFFFEFFFF) ∧
    FracInv (iterBody32^[5] (loopStart32 0xFFFEFFFF)).v
      (iterBody32^[5] (loopStart32 0xFFFEFFFF)).nFracBits ∧
    (renorm32 (iterBody32^[5] (loopStart32 0xFFFEFFFF)).v
        (iterBody32^[5] (loopStart32 0xFFFEFFFF)).nFracBits).1 *
      (renorm32 (iterBody32^[5] (loopStart32 0xFFFEFFFF)).v
        (iterBody32^[5] (loopStart32 0xFFFEFFFF)).nFracBits).1 ≤ 2 ^ 32 - 1 ∧
    2 * (renorm32 (iterBody32^[5] (loopStart32 0xFFFEFFFF)).v
        (iterBody32^[5] (loopStart32 0xFFFEFFFF)).nFracBits).2 + 1 ≤ 31 ∧
    (msb16bit ((renormWhile32 0 (iterBody32^[0] (loopStart32 0xFFFEFFFF)).v
          (iterBody32^[0] (loopStart32 0xFFFEFFFF)).nFracBits).1 >>> 16) + 1 ≤
        (renormWhile32 0 (iterBody32^[0] (loopStart32 0xFFFEFFFF)).v
          (iterBody32^[0] (loopStart32 0xFFFEFFFF)).nFracBits).2 ∧
      (renormWhile32 0 (iterBody32^[0] (loopStart32 0xFFFEFFFF)).v
          (iterBody32^[0] (loopStart32 0xFFFEFFFF)).nFracBits).1 +
        halfOf (msb16bit ((renormWhile32 0 (iterBody32^[0] (loopStart32 0xFFFEFFFF)).v
          (iterBody32^[0] (loopStart32 0xFFFEFFFF)).nFracBits).1 >>> 16) + 1) ≤ 2 ^ 32 - 1) :=
  have hodd : ∀ k, 0xFFFEFFFF ≠ 2 ^ k := by
    intro k h
    have hk : k < 32 :=
      (Nat.pow_lt_pow_iff_right (show 1 < 2 by norm_num)).1
        (h ▸ (by norm_num : 0xFFFEFFFF < 2 ^ 32))
    interval_cases k <;> exact absurd h (by decide)
  have h := ilog2_32_loop_invariant 0xFFFEFFFF 28 0 5 (by decide) (by decide) hodd
    (by decide) (by decide)
  have h0 := ilog2_32_loop_invariant 0xFFFEFFFF 28 0 0 (by decide) (by decide) hodd
    (by decide) (by decide)
  ⟨h.1, h.2.1, h.2.2.2.1, h.2.2.2.2, h0.2.2.1 0 (by decide)⟩

/-- C11: the error-bound scenario.  For every integer `v` with `256 ≤ v < 512` (the value
`v / 256` in `[1.0, 2.0)` with 8 fractional input bits), with `(frac, intPart)` the result
of `ilog2_32(v, 16)`, the real number
`|(intPart - 8) + frac / 2 ^ 16 - log2 (v / 256)|` is below `10⁻⁴`. -/
theorem ilog2_32_error_bound (v p : Nat) (h1 : 256 ≤ v) (h2 : v < 512) :
    ∃ frac intPart, ilog2_32 v 16 p = .ok (frac, intPart) ∧
      |((intPart : ℝ) - 8) + (frac : ℝ) / 2 ^ 16 - Real.logb 2 ((v : ℝ) / 256)|
        < 1 / 10 ^ 4 := by
  obtain ⟨frac, hres, hlo, hhi⟩ := errCheck_spec p h1 h2
  refine ⟨frac, 8, hres, ?_⟩
  have hvpos : (0 : ℝ) < (v : ℝ) := by exact_mod_cast (show 0 < v by omega)
  have hb : (1 : ℝ) < 2 := by norm_num
  have hlog2 : Real.logb 2 (2 : ℝ) = 1 := Real.logb_self_eq_one hb
  -- the two integer bounds, as bounds on `2 ^ 16 * log2 v`
  have hlo' : ((8 * 2 ^ 16 + frac - 2 : ℕ) : ℝ) ≤ (2 ^ 16 : ℕ) * Real.logb 2 (v : ℝ) := by
    have h : ((2 : ℝ) ^ (8 * 2 ^ 16 + frac - 2)) ≤ (v : ℝ) ^ 2 ^ 16 := by exact_mod_cast hlo
    have := Real.logb_le_logb_of_le hb (by positivity) h
    rwa [Real.logb_pow, Real.logb_pow, hlog2, mul_one] at this
  have hhi' : ((2 ^ 16 : ℕ) : ℝ) * Real.logb 2 (v : ℝ) < ((8 * 2 ^ 16 + frac + 1 : ℕ) : ℝ) := by
    have h : (v : ℝ) ^ 2 ^ 16 < ((2 : ℝ) ^ (8 * 2 ^ 16 + frac + 1)) := by exact_mod_cast hhi
    have := Real.logb_lt_logb hb (by positivity) h
    rwa [Real.logb_pow, Real.logb_pow, hlog2, mul_one] at this
  have hsub : ((8 * 2 ^ 16 + frac - 2 : ℕ) : ℝ) = 8 * 2 ^ 16 + (frac : ℝ) - 2 := by
    rw [Nat.cast_sub (by omega)]
    push_cast
    ring
  rw [hsub] at hlo'
  push_cast at hlo' hhi'
  have h256 : Real.logb 2 (256 : ℝ) = 8 := by
    have : (256 : ℝ) = 2 ^ 8 := by norm_num
    rw [this, Real.logb_pow, hlog2]
    norm_num
  rw [Real.logb_div (ne_of_gt hvpos) (by norm_num), h256, abs_lt]
  constructor
  · norm_num at hlo' hhi' ⊢
    linarith
  · norm_num at hlo' hhi' ⊢
    linarith

/-- Witness of C11 at `v = 257`, the input with the largest deviation. -/
theorem ilog2_32_error_bound_witness :
    ∃ frac intPart, ilog2_32 257 16 0 = .ok (frac, intPart) ∧
      |((intPart : ℝ) - 8) + (frac : ℝ) / 2 ^ 16 - Real.logb 2 (((257 : ℕ) : ℝ) / 256)|
        < 1 / 10 ^ 4 :=
  ilog2_32_error_bound 257 0 (by decide) (by decide)

end Log2Test
